import Mathlib

/-!
# Verification of the i18n-generator extraction pipeline

Shallow embedding of the core of the `i18n-generator` repository:

* the recursive tree extractor `extractTranslations` (`src/cli.js` lines 11-37,
  and the identical plugin method in the unnamed plugin source),
* the iterative tree extractor `extractTranslationsIterative`
  (`src/cli.js` lines 258-294; the worker file carries a textually identical
  copy, embedded here as `workerExtractTranslationsIterative`),
* the chunk scheduler `extractTranslationsChunked` (`src/cli.js` lines 300-319),
* the batch writer `writeFilesInBatch` (`src/cli.js` lines 388-410),
* the worker main / `runWorker` / `processFilesInParallel` message flow
  (worker source lines 63-99, `src/cli.js` lines 325-339 and 415-436),
* the size-based routing of `processFileWithWorker` (`src/cli.js` lines 341-362).

JSON values are modelled by the inductive type `JVal`; a parsed document
(always a JSON object in this pipeline) is given by its ordered list of
key/value entries, mirroring JavaScript property-insertion order.  Keys of a
parsed JavaScript object are unique at every level, which appears below as
`List.Nodup` hypotheses on the key lists where a theorem needs it.
-/

/-- A JSON value as produced by `JSON.parse`: `null`, a boolean, a number, a
string, an array, or an object given by its ordered key/value entries. -/
inductive JVal where
  | null
  | bool (b : Bool)
  | num (n : Int)
  | str (s : String)
  | arr (elems : List JVal)
  | obj (entries : List (String × JVal))

/-- JavaScript truthiness of a value (`if (v)`): `null`/`undefined`, `false`,
`0`, and the empty string are falsy; arrays and objects are always truthy.
(`undefined`, the result of a missing property access, is modelled by
`JVal.null`, which has the same truthiness.) -/
def truthy : JVal → Bool
  | .null => false
  | .bool b => b
  | .num n => n != 0
  | .str s => s != ""
  | .arr _ => true
  | .obj _ => true

/-- Property lookup `o[key]` on a parsed object given by its entries.
Keys of a parsed JavaScript object are unique, so which occurrence wins is
immaterial; we take the first. -/
def jLookup : List (String × JVal) → String → Option JVal
  | [], _ => none
  | (k, v) :: rest, key => if k = key then some v else jLookup rest key

/-- `value[lang]` as a `JVal`: a missing property reads as `undefined`,
modelled by `JVal.null` (same truthiness). -/
def langVal (fields : List (String × JVal)) (lang : String) : JVal :=
  (jLookup fields lang).getD JVal.null

/-- `Object.keys(value).some(k => languages.includes(k))` — equally
`languageSet.has(k)`: does any key of the object belong to the configured
language list? -/
def hasLangKeys (languages : List String) (fields : List (String × JVal)) : Bool :=
  fields.any (fun p => languages.contains p.1)

/-- The body of the recursive extractor's inner helper
(`processObject(source, target)`, `src/cli.js` lines 14-33).  The JavaScript
helper appends entries to the mutable `target` in key order; here it returns
the list of entries it would append.  Per key: a non-object (or `null` or
array) value is skipped; an object value with a truthy `value[lang]` emits
`key -> value[lang]`; otherwise, if none of its keys is a configured
language, it is a nested branch and is processed recursively; otherwise the
key is omitted. -/
def processObject (languages : List String) (lang : String) :
    List (String × JVal) → List (String × JVal)
  | [] => []
  | (key, value) :: rest =>
    match value with
    | JVal.obj fields =>
      if truthy (langVal fields lang) then
        (key, langVal fields lang) :: processObject languages lang rest
      else if hasLangKeys languages fields then
        processObject languages lang rest
      else
        (key, JVal.obj (processObject languages lang fields)) ::
          processObject languages lang rest
    | _ => processObject languages lang rest

/-- `extractTranslations(obj, languages, lang)` (`src/cli.js` lines 11-37):
builds `result = {}` and runs `processObject(obj, result)`.  The identical
plugin method `extractTranslations(obj, lang)` (with `this.languages`) in the
unnamed plugin source is the same function. -/
def extractTranslations (obj : List (String × JVal)) (languages : List String)
    (lang : String) : List (String × JVal) :=
  processObject languages lang obj

/-- `extractTranslationsIterative(obj, lang)` (`src/cli.js` lines 258-294).
The source maintains an explicit stack of `(source, target)` frames and
mutates each freshly created `target[key] = {}` object in place; every
target object is written by exactly one frame, so the loop computes the same
reshaped tree as direct recursion on each frame's source (this is proved
against a literal step-by-step model of the loop in
`iterMachineRun_eq_extract` below).  The per-key logic: skip `null`,
non-objects and arrays; emit `key -> value[lang]` when that is truthy;
otherwise recurse exactly when no key of the value is in `this.languageSet`. -/
def extractTranslationsIterative (languageSet : List String) (lang : String) :
    List (String × JVal) → List (String × JVal)
  | [] => []
  | (key, value) :: rest =>
    match value with
    | JVal.obj fields =>
      if truthy (langVal fields lang) then
        (key, langVal fields lang) :: extractTranslationsIterative languageSet lang rest
      else if hasLangKeys languageSet fields then
        extractTranslationsIterative languageSet lang rest
      else
        (key, JVal.obj (extractTranslationsIterative languageSet lang fields)) ::
          extractTranslationsIterative languageSet lang rest
    | _ => extractTranslationsIterative languageSet lang rest

/-- `extractTranslationsIterative(obj, lang, languageSet)` from the worker
source (lines 10-41): a textually identical copy of the class method, with
`languageSet` passed as an argument. -/
def workerExtractTranslationsIterative (languageSet : List String) (lang : String) :
    List (String × JVal) → List (String × JVal)
  | [] => []
  | (key, value) :: rest =>
    match value with
    | JVal.obj fields =>
      if truthy (langVal fields lang) then
        (key, langVal fields lang) :: workerExtractTranslationsIterative languageSet lang rest
      else if hasLangKeys languageSet fields then
        workerExtractTranslationsIterative languageSet lang rest
      else
        (key, JVal.obj (workerExtractTranslationsIterative languageSet lang fields)) ::
          workerExtractTranslationsIterative languageSet lang rest
    | _ => workerExtractTranslationsIterative languageSet lang rest

/-! ## Chunk scheduler (`extractTranslationsChunked`, `src/cli.js` lines 300-319) -/

/-- `target[k] = v` on a JavaScript object: an existing key keeps its position
and gets the new value; a new key is appended. -/
def jsSet : List (String × JVal) → String → JVal → List (String × JVal)
  | [], k, v => [(k, v)]
  | (k0, v0) :: rest, k, v =>
    if k0 = k then (k0, v) :: rest else (k0, v0) :: jsSet rest k v

/-- `Object.assign(target, source)`: assign every entry of `source` into
`target` in order. -/
def jsAssign (target source : List (String × JVal)) : List (String × JVal) :=
  source.foldl (fun t p => jsSet t p.1 p.2) target

/-- `Object.fromEntries(entries)`: build an object by assigning the entries
in order into a fresh empty object. -/
def jsFromEntries (entries : List (String × JVal)) : List (String × JVal) :=
  jsAssign [] entries

/-- The slicing loop `for (let i = 0; i < entries.length; i += chunkSize)
{ entries.slice(i, i + chunkSize) }`: consecutive groups of at most
`chunkSize` entries.  Faithful for `chunkSize ≥ 1` (the source loop does not
terminate for `chunkSize = 0`; here `chunkSize - 1 = 0` makes that case
degenerate but total). -/
def chunksOf (chunkSize : Nat) : List α → List (List α)
  | [] => []
  | x :: xs => List.take chunkSize (x :: xs) :: chunksOf chunkSize (List.drop (chunkSize - 1) xs)
termination_by l => l.length
decreasing_by simp [List.length_drop]; omega

/-- `extractTranslationsChunked(obj, lang)` (`src/cli.js` lines 300-319):
slice `Object.entries(obj)` into chunks, run the iterative extractor on
`Object.fromEntries(chunk)`, and `Object.assign` each partial result into the
accumulating `result` (initially `{}`).  The inter-chunk `setImmediate` yield
has no effect on the computed value.  The worker source (lines 43-61) carries
a textually identical copy of this function. -/
def extractTranslationsChunked (languageSet : List String) (chunkSize : Nat)
    (obj : List (String × JVal)) (lang : String) : List (String × JVal) :=
  (chunksOf chunkSize obj).foldl
    (fun result chunk =>
      jsAssign result (extractTranslationsIterative languageSet lang (jsFromEntries chunk)))
    []

/-! ## Branch/leaf classification and output shape (for the structural
isomorphism property) -/

/-- The exact condition under which the extractor recurses into an object
value (`src/cli.js` lines 274-287): `value[lang]` is falsy and no key of the
value is in the language set. -/
def isBranchStep (languageSet : List String) (lang : String)
    (fields : List (String × JVal)) : Bool :=
  !truthy (langVal fields lang) && !hasLangKeys languageSet fields

/-- A bare tree of keys: the shape of the branch (recursed-into) part of an
extraction output, with all leaf emissions erased. -/
inductive Skel where
  | node (children : List (String × Skel))

/-- The branch skeleton of the output of `extractTranslationsIterative`:
follows exactly the extractor's control flow, keeping the keys of the
entries it recurses into and dropping leaf emissions and omitted keys. -/
def extractShape (languageSet : List String) (lang : String) :
    List (String × JVal) → List (String × Skel)
  | [] => []
  | (key, value) :: rest =>
    match value with
    | JVal.obj fields =>
      if truthy (langVal fields lang) then extractShape languageSet lang rest
      else if hasLangKeys languageSet fields then extractShape languageSet lang rest
      else
        (key, Skel.node (extractShape languageSet lang fields)) ::
          extractShape languageSet lang rest
    | _ => extractShape languageSet lang rest

/-! ## Batch writer (`writeFilesInBatch`, `src/cli.js` lines 388-410) -/

/-- One element of the `results` list assembled by `processFileMainThread` /
the worker: `{ lang, outputPath, outputContent }`. -/
structure FileWriteResult where
  lang : String
  outputPath : String
  outputContent : List (String × JVal)

/-- `Promise.all` over a list of settled write outcomes: fulfils with unit
when every promise fulfils, otherwise rejects with the reason of the first
rejected promise (settlement is rendered deterministically in list order;
under any scheduling, at most one rejection reason is ever reported). -/
def promiseAll : List (Except String Unit) → Except String Unit
  | [] => .ok ()
  | .ok () :: rest => promiseAll rest
  | .error e :: _ => .error e

/-- `writeFilesInBatch(fileResults)` (`src/cli.js` lines 388-410): for each
result, ensure the destination directory exists (pure filesystem effect, not
modelled) and issue `fs.promises.writeFile(outputPath, ...)`; then
`await Promise.all(writePromises)`.  The filesystem is abstracted as
`writeOutcome`, mapping a destination path to the settlement of its write
(a Node `fs` rejection reason carries the offending path in its message). -/
def writeFilesInBatch (writeOutcome : String → Except String Unit)
    (fileResults : List FileWriteResult) : Except String Unit :=
  promiseAll (fileResults.map (fun r => writeOutcome r.outputPath))

/-! ## Worker messages and orchestration (worker source lines 63-99,
`src/cli.js` lines 325-339 and 415-436) -/

/-- `path.join(a, b, c)` for plain relative segments. -/
def pathJoin3 (a b c : String) : String :=
  a ++ "/" ++ b ++ "/" ++ c

/-- A message posted by the worker over `parentPort`: either the per-language
results array, or the structured failure object
`{ error: error.message, stack: error.stack }` posted by the catch handler. -/
inductive WorkerMessage where
  | results (rs : List FileWriteResult)
  | failure (error : String) (stack : String)

/-- The worker main function (worker source lines 63-99): parse the file
(outcome abstracted as `parseOutcome`, carrying `error.message` on failure),
then for every requested language run the chunked extractor and collect
`{ lang, outputPath, outputContent }`; post the results array, or, if
anything threw, post `{ error: error.message, stack }` (and then exit with
code 1). -/
def workerMain (parseOutcome : Except String (List (String × JVal)))
    (stack : String) (outputDir inputFile : String) (languages : List String)
    (chunkSize : Nat) : WorkerMessage :=
  match parseOutcome with
  | .ok content =>
    .results (languages.map (fun lang =>
      { lang := lang
        outputPath := pathJoin3 outputDir lang inputFile
        outputContent := extractTranslationsChunked languages chunkSize content lang }))
  | .error e => .failure e stack

/-- `runWorker(workerData)` (`src/cli.js` lines 325-339): the promise
resolves with the first message the worker posts — whatever it is.  The
`error`/`exit` rejection handlers can only fire when no message was posted
first; the worker posts exactly one message (even in its catch handler)
before exiting, so the posted message always resolves the promise. -/
def runWorker (posted : WorkerMessage) : Except String WorkerMessage :=
  .ok posted

/-- An element of the heterogeneous `results` array accumulated by
`processFilesInParallel`: a genuine file result, or a worker failure object
that was flattened into the array. -/
inductive CollectedItem where
  | fileResult (r : FileWriteResult)
  | failureObject (error : String) (stack : String)

/-- `results.push(...batchResults.flat())`: a results array contributes its
elements; a failure object is not an array, so `flat` keeps it whole. -/
def flattenMessage : WorkerMessage → List CollectedItem
  | .results rs => rs.map .fileResult
  | .failure e st => [.failureObject e st]

/-- `processFilesInParallel(inputFiles)` (`src/cli.js` lines 415-436), given
the message each file's worker resolved with: batches only bound concurrency
and `Promise.all` preserves order, so the collected `results` array is the
in-order concatenation of every resolved message, flattened one level. -/
def processFilesInParallel (messages : List WorkerMessage) : List CollectedItem :=
  (messages.map flattenMessage).flatten

/-! ## Size-based routing (`processFileWithWorker`, `src/cli.js` lines 341-362) -/

/-- Where a file is processed. -/
inductive Route where
  | mainThread
  | workerThread
deriving DecidableEq

/-- The routing decision of `processFileWithWorker`:
`fileSizeKB = stats.size / 1024` (exact division) and
`if (fileSizeKB < 100) { main thread } else { worker }`. -/
def processFileWithWorkerRoute (fileSizeBytes : Nat) : Route :=
  if (fileSizeBytes : ℚ) / 1024 < 100 then .mainThread else .workerThread

/-! ## A literal step model of the iterative extraction loop

`extractTranslationsIterative` in the source is a `while` loop over an
explicit stack of `{source, target}` frames, where each `target` is a
mutable object inside the result tree under construction.  The model below
renders that loop exactly: a frame addresses its target object by its path
from the result root, one loop iteration (`processFrame`) performs the
frame's `for`-loop of `target[key] = ...` assignments (`setAtPath`) and
returns the subframes it pushes, and `iterMachineRun` runs the loop until
the stack is empty (`pop` takes the most recently pushed frame).
`iterMachineRun_eq_extract` below proves the loop computes
`extractTranslationsIterative`. -/

/-- The entries of the object reached from the result root by `path`
(`none` when the path does not lead to an object). -/
def getAtPath : List (String × JVal) → List String → Option (List (String × JVal))
  | tree, [] => some tree
  | tree, p :: ps =>
    match jLookup tree p with
    | some (JVal.obj fs) => getAtPath fs ps
    | _ => none

/-- `target[key] = v` where `target` is the object addressed by `path`:
descend along the path and perform `jsSet` on the addressed object (the
identity when the path does not lead to an object). -/
def setAtPath : List String → String → JVal → List (String × JVal) → List (String × JVal)
  | [], k, v, tree => jsSet tree k v
  | _ :: _, _, _, [] => []
  | p :: ps, k, v, (k0, v0) :: rest =>
    if k0 = p then
      match v0 with
      | JVal.obj fs => (k0, JVal.obj (setAtPath ps k v fs)) :: rest
      | _ => (k0, v0) :: rest
    else (k0, v0) :: setAtPath (p :: ps) k v rest
termination_by p _ _ tree => (p.length, tree.length)

/-- Append entries at the end of the object addressed by `path` (the
identity when the path does not lead to an object).  Writing a fresh key
with `setAtPath` is exactly appending one entry. -/
def appendAt : List String → List (String × JVal) → List (String × JVal) → List (String × JVal)
  | [], e, tree => tree ++ e
  | _ :: _, _, [] => []
  | p :: ps, e, (k0, v0) :: rest =>
    if k0 = p then
      match v0 with
      | JVal.obj fs => (k0, JVal.obj (appendAt ps e fs)) :: rest
      | _ => (k0, v0) :: rest
    else (k0, v0) :: appendAt (p :: ps) e rest
termination_by p _ tree => (p.length, tree.length)

/-- One iteration of the loop body (`src/cli.js` lines 265-290): run the
`for` loop over the keys of the popped frame's `source` against the frame's
target (addressed by `tpath`), returning the updated result tree and the
subframes pushed during the iteration, in push order. -/
def processFrame (languageSet : List String) (lang : String) (tpath : List String) :
    List (String × JVal) → List (String × JVal) →
      List (String × JVal) × List (List (String × JVal) × List String)
  | [], result => (result, [])
  | (key, value) :: rest, result =>
    match value with
    | JVal.obj fields =>
      if truthy (langVal fields lang) then
        processFrame languageSet lang tpath rest
          (setAtPath tpath key (langVal fields lang) result)
      else if hasLangKeys languageSet fields then
        processFrame languageSet lang tpath rest result
      else
        let step := processFrame languageSet lang tpath rest
          (setAtPath tpath key (JVal.obj []) result)
        (step.1, (fields, tpath ++ [key]) :: step.2)
    | _ => processFrame languageSet lang tpath rest result

/-- The entries one loop iteration writes directly into its own target:
leaves resolve to `value[lang]`, branch keys are created as `{}` (filled
later by the pushed subframe), other keys are skipped. -/
def directEntries (languageSet : List String) (lang : String) :
    List (String × JVal) → List (String × JVal)
  | [] => []
  | (key, value) :: rest =>
    match value with
    | JVal.obj fields =>
      if truthy (langVal fields lang) then
        (key, langVal fields lang) :: directEntries languageSet lang rest
      else if hasLangKeys languageSet fields then
        directEntries languageSet lang rest
      else
        (key, JVal.obj []) :: directEntries languageSet lang rest
    | _ => directEntries languageSet lang rest

/-- The subframes one loop iteration pushes, in push order. -/
def branchFrames (languageSet : List String) (lang : String) (tpath : List String) :
    List (String × JVal) → List (List (String × JVal) × List String)
  | [] => []
  | (key, value) :: rest =>
    match value with
    | JVal.obj fields =>
      if truthy (langVal fields lang) then branchFrames languageSet lang tpath rest
      else if hasLangKeys languageSet fields then branchFrames languageSet lang tpath rest
      else (fields, tpath ++ [key]) :: branchFrames languageSet lang tpath rest
    | _ => branchFrames languageSet lang tpath rest

/-- The `while (stack.length > 0)` loop: `stack.pop()` takes the most
recently pushed frame (our list head); the subframes pushed by an iteration
land on top of the stack, the last-pushed one first (`reverse`). -/
def iterMachineRun (languageSet : List String) (lang : String) :
    List (List (String × JVal) × List String) → List (String × JVal) →
      List (String × JVal)
  | [], result => result
  | (source, tpath) :: stack, result =>
    let step := processFrame languageSet lang tpath source result
    iterMachineRun languageSet lang (step.2.reverse ++ stack) step.1
termination_by stack _ => (stack.map (fun f => sizeOf f.1)).sum
decreasing_by
  have key : ∀ (src res : List (String × JVal)) (tp : List String),
      ((processFrame languageSet lang tp src res).2.map (fun f => sizeOf f.1)).sum
        < sizeOf src := by
    intro src
    induction src with
    | nil => intro res tp; simp [processFrame]
    | cons p rest ih =>
      intro res tp
      obtain ⟨k, v⟩ := p
      have hsz : sizeOf rest < sizeOf ((k, v) :: rest) := by
        simp only [List.cons.sizeOf_spec]
        omega
      cases v with
      | obj fields =>
        cases h1 : truthy (langVal fields lang) with
        | true =>
          have h := ih (setAtPath tp k (langVal fields lang) res) tp
          simp [processFrame, h1]
          omega
        | false =>
          cases h2 : hasLangKeys languageSet fields with
          | true =>
            have h := ih res tp
            simp [processFrame, h1, h2]
            omega
          | false =>
            have h := ih (setAtPath tp k (JVal.obj []) res) tp
            simp [processFrame, h1, h2]
            omega
      | null => have h := ih res tp; simp [processFrame]; omega
      | bool b => have h := ih res tp; simp [processFrame]; omega
      | num n => have h := ih res tp; simp [processFrame]; omega
      | str s => have h := ih res tp; simp [processFrame]; omega
      | arr elems => have h := ih res tp; simp [processFrame]; omega
  simp only [List.map_append, List.sum_append, List.map_reverse,
    List.sum_reverse, List.map_cons, List.sum_cons]
  have h2 := key source result tpath
  omega

/-- `extractTranslationsIterative(obj, lang)` as the literal loop: start
with `result = {}` and `stack = [{source: obj, target: result}]`. -/
def extractTranslationsIterativeMachine (languageSet : List String) (lang : String)
    (obj : List (String × JVal)) : List (String × JVal) :=
  iterMachineRun languageSet lang [(obj, [])] []

/-- Two target paths that part ways at some common index: neither is a
prefix of the other, so writes under one path are invisible under the
other. -/
inductive Diverge : List String → List String → Prop where
  | head {a b : String} {p q : List String} (h : a ≠ b) : Diverge (a :: p) (b :: q)
  | cons (a : String) {p q : List String} (h : Diverge p q) : Diverge (a :: p) (a :: q)

/-- Keys are distinct at every level of the tree — true of every value
produced by `JSON.parse` (a JavaScript object cannot carry duplicate
keys). -/
def wfEntries : List (String × JVal) → Bool
  | [] => true
  | (k, v) :: rest =>
    !((rest.map Prod.fst).contains k) &&
      (match v with
        | JVal.obj fs => wfEntries fs
        | _ => true) &&
      wfEntries rest

/-! ## Basic lemmas about the extractors -/

/-- The class-method iterative extractor computes the same function as the
recursive helper of `extractTranslations`: the per-key logic is identical. -/
theorem extractTranslationsIterative_eq_processObject (S : List String) (l : String)
    (obj : List (String × JVal)) :
    extractTranslationsIterative S l obj = processObject S l obj := by
  induction obj using extractTranslationsIterative.induct S l with
  | case1 => simp [extractTranslationsIterative, processObject]
  | case2 key rest fields h ih =>
    simp [extractTranslationsIterative, processObject, h, ih]
  | case3 key rest fields h1 h2 ih =>
    simp [extractTranslationsIterative, processObject, h1, h2, ih]
  | case4 key rest fields h1 h2 ihf ih =>
    simp [extractTranslationsIterative, processObject, h1, h2, ihf, ih]
  | case5 key value rest hnv ih =>
    cases value <;>
      first
        | exact absurd rfl (hnv _)
        | simp [extractTranslationsIterative, processObject, ih]

/-- The worker file's copy of the iterative extractor computes the same
function as the class method. -/
theorem workerExtractTranslationsIterative_eq (S : List String) (l : String)
    (obj : List (String × JVal)) :
    workerExtractTranslationsIterative S l obj = extractTranslationsIterative S l obj := by
  induction obj using workerExtractTranslationsIterative.induct S l with
  | case1 => simp [extractTranslationsIterative, workerExtractTranslationsIterative]
  | case2 key rest fields h ih =>
    simp [extractTranslationsIterative, workerExtractTranslationsIterative, h, ih]
  | case3 key rest fields h1 h2 ih =>
    simp [extractTranslationsIterative, workerExtractTranslationsIterative, h1, h2, ih]
  | case4 key rest fields h1 h2 ihf ih =>
    simp [extractTranslationsIterative, workerExtractTranslationsIterative, h1, h2, ihf, ih]
  | case5 key value rest hnv ih =>
    cases value <;>
      first
        | exact absurd rfl (hnv _)
        | simp [extractTranslationsIterative, workerExtractTranslationsIterative, ih]

/-- A successful property lookup comes from an entry of the object. -/
theorem jLookup_mem {fields : List (String × JVal)} {key : String} {w : JVal}
    (h : jLookup fields key = some w) : (key, w) ∈ fields := by
  induction fields with
  | nil => simp [jLookup] at h
  | cons p rest ih =>
    obtain ⟨k0, v0⟩ := p
    by_cases hk : k0 = key
    · subst hk
      simp [jLookup] at h
      simp [h]
    · simp [jLookup, hk] at h
      exact List.mem_cons_of_mem _ (ih h)

/-- If `value[lang]` is truthy and `lang` is one of the configured languages,
then the value has a language key. -/
theorem hasLangKeys_of_truthy_langVal {S : List String} {lang : String}
    {fields : List (String × JVal)} (hmem : lang ∈ S)
    (h : truthy (langVal fields lang) = true) : hasLangKeys S fields = true := by
  unfold langVal at h
  cases hw : jLookup fields lang with
  | none => rw [hw] at h; simp [truthy] at h
  | some w =>
    have : (lang, w) ∈ fields := jLookup_mem hw
    simp only [hasLangKeys, List.any_eq_true]
    exact ⟨(lang, w), this, by simpa using hmem⟩

/-- The iterative extractor distributes over appending entry lists: each
top-level entry is processed independently. -/
theorem extractTranslationsIterative_append (S : List String) (l : String)
    (a b : List (String × JVal)) :
    extractTranslationsIterative S l (a ++ b) =
      extractTranslationsIterative S l a ++ extractTranslationsIterative S l b := by
  induction a using extractTranslationsIterative.induct S l with
  | case1 => simp [extractTranslationsIterative]
  | case2 key rest fields h ih =>
    simp [extractTranslationsIterative, h, ih]
  | case3 key rest fields h1 h2 ih =>
    simp [extractTranslationsIterative, h1, h2, ih]
  | case4 key rest fields h1 h2 ihf ih =>
    simp [extractTranslationsIterative, h1, h2, ih]
  | case5 key value rest hnv ih =>
    cases value <;>
      first
        | exact absurd rfl (hnv _)
        | simp [extractTranslationsIterative, ih]

/-- The keys of an extraction output form a sublist of the keys of the
input: every key is either kept (leaf or branch) or dropped, in order. -/
theorem extract_keys_sublist (S : List String) (l : String) (obj : List (String × JVal)) :
    List.Sublist ((extractTranslationsIterative S l obj).map Prod.fst) (obj.map Prod.fst) := by
  induction obj using extractTranslationsIterative.induct S l with
  | case1 => simp [extractTranslationsIterative]
  | case2 key rest fields h ih =>
    simpa [extractTranslationsIterative, h] using ih.cons₂ key
  | case3 key rest fields h1 h2 ih =>
    simpa [extractTranslationsIterative, h1, h2] using ih.cons key
  | case4 key rest fields h1 h2 ihf ih =>
    simpa [extractTranslationsIterative, h1, h2] using ih.cons₂ key
  | case5 key value rest hnv ih =>
    cases value <;>
      first
        | exact absurd rfl (hnv _)
        | simpa [extractTranslationsIterative] using ih.cons key

/-! ## Lemmas about object assignment and chunking -/

/-- Assigning a fresh key appends the entry. -/
theorem jsSet_of_not_mem {t : List (String × JVal)} {k : String} (v : JVal)
    (h : k ∉ t.map Prod.fst) : jsSet t k v = t ++ [(k, v)] := by
  induction t with
  | nil => simp [jsSet]
  | cons p rest ih =>
    obtain ⟨k0, v0⟩ := p
    simp only [List.map_cons, List.mem_cons] at h
    push_neg at h
    simp [jsSet, Ne.symm h.1, ih h.2]

/-- `Object.assign` with a source whose keys are fresh for the target (and
mutually distinct) appends the source entries. -/
theorem jsAssign_of_disjoint :
    ∀ {s t : List (String × JVal)}, (s.map Prod.fst).Nodup →
      (∀ x ∈ s.map Prod.fst, x ∉ t.map Prod.fst) → jsAssign t s = t ++ s := by
  intro s
  induction s with
  | nil => intro t _ _; simp [jsAssign]
  | cons p rest ih =>
    intro t hnd hdisj
    obtain ⟨k, v⟩ := p
    simp only [List.map_cons, List.nodup_cons] at hnd
    have hk : k ∉ t.map Prod.fst := hdisj k (by simp)
    have step : jsAssign t ((k, v) :: rest) = jsAssign (t ++ [(k, v)]) rest := by
      simp [jsAssign, jsSet_of_not_mem v hk]
    rw [step, ih hnd.2]
    · simp
    · intro x hx
      simp only [List.map_append, List.mem_append, List.map_cons] at *
      push_neg
      refine ⟨hdisj x (by simp [hx]), ?_⟩
      simp only [List.map_nil, List.mem_cons, List.not_mem_nil, or_false]
      exact fun hxk => hnd.1 (hxk ▸ hx)

/-- `Object.fromEntries` is the identity on an entry list with distinct keys. -/
theorem jsFromEntries_of_nodup {s : List (String × JVal)}
    (h : (s.map Prod.fst).Nodup) : jsFromEntries s = s := by
  have := jsAssign_of_disjoint (t := []) h (by simp)
  simpa [jsFromEntries] using this

/-- Concatenating the chunks gives back the original list (for a positive
chunk size). -/
theorem chunksOf_flatten {k : Nat} (hk : 1 ≤ k) :
    ∀ (l : List α), (chunksOf k l).flatten = l := by
  intro l
  induction l using chunksOf.induct k with
  | case1 => simp [chunksOf]
  | case2 x xs ih =>
    have hdrop : List.drop (k - 1) xs = List.drop k (x :: xs) := by
      obtain ⟨k0, rfl⟩ : ∃ k0, k = k0 + 1 := ⟨k - 1, by omega⟩
      simp
    rw [chunksOf, List.flatten_cons, ih, hdrop, List.take_append_drop]

/-- Generalised form of the chunking guarantee: folding the per-chunk
extract-and-assign step over the chunks of `obj`, starting from an
accumulator whose keys are disjoint from those of `obj`, appends exactly the
un-chunked extraction of `obj`. -/
theorem chunkedFold_eq (S : List String) (l : String) {k : Nat} (hk : 1 ≤ k) :
    ∀ (obj acc : List (String × JVal)), (obj.map Prod.fst).Nodup →
      (∀ x ∈ obj.map Prod.fst, x ∉ acc.map Prod.fst) →
      (chunksOf k obj).foldl
        (fun result chunk =>
          jsAssign result (extractTranslationsIterative S l (jsFromEntries chunk))) acc
        = acc ++ extractTranslationsIterative S l obj := by
  intro obj
  induction obj using chunksOf.induct k with
  | case1 =>
    intro acc _ _
    simp [chunksOf, extractTranslationsIterative]
  | case2 x xs ih =>
    intro acc hnd hdisj
    have hdrop : List.drop (k - 1) xs = List.drop k (x :: xs) := by
      obtain ⟨k0, rfl⟩ : ∃ k0, k = k0 + 1 := ⟨k - 1, by omega⟩
      simp
    have hsplit : List.take k (x :: xs) ++ List.drop k (x :: xs) = x :: xs :=
      List.take_append_drop k (x :: xs)
    have hnd2 : ((List.take k (x :: xs)).map Prod.fst ++
        (List.drop k (x :: xs)).map Prod.fst).Nodup := by
      rw [← List.map_append, hsplit]; exact hnd
    rw [List.nodup_append] at hnd2
    obtain ⟨hndT, hndD, hdisjTD⟩ := hnd2
    have hmemT : ∀ y ∈ (List.take k (x :: xs)).map Prod.fst, y ∈ (x :: xs).map Prod.fst := by
      intro y hy; rw [← hsplit, List.map_append]; exact List.mem_append_left _ hy
    have hmemD : ∀ y ∈ (List.drop k (x :: xs)).map Prod.fst, y ∈ (x :: xs).map Prod.fst := by
      intro y hy; rw [← hsplit, List.map_append]; exact List.mem_append_right _ hy
    have hsubT := extract_keys_sublist S l (List.take k (x :: xs))
    have hstep : jsAssign acc (extractTranslationsIterative S l
        (jsFromEntries (List.take k (x :: xs))))
        = acc ++ extractTranslationsIterative S l (List.take k (x :: xs)) := by
      rw [jsFromEntries_of_nodup hndT]
      exact jsAssign_of_disjoint (hsubT.nodup hndT)
        (fun y hy => hdisj y (hmemT y (hsubT.subset hy)))
    rw [chunksOf, List.foldl_cons, hstep, ih]
    · rw [List.append_assoc, ← extractTranslationsIterative_append, hdrop, hsplit]
    · rw [hdrop]; exact hndD
    · intro y hy
      rw [hdrop] at hy
      have hyobj : y ∈ (x :: xs).map Prod.fst := hmemD y hy
      simp only [List.map_append, List.mem_append]
      push_neg
      exact ⟨hdisj y hyobj, fun hyT => hdisjTD.symm hy (hsubT.subset hyT)⟩

/-- C1:  For every document, requested language code, language set, and
chunk size `k ≥ 1`, chunked extraction (splitting the document's top-level
entries into consecutive groups of at most `k` and merging the per-group
extraction results) returns a result identical to running the extractor once
on the whole document.  (The keys of a parsed document are distinct.) -/
theorem c1_chunked_extraction_identical (languageSet : List String) (lang : String)
    (chunkSize : Nat) (obj : List (String × JVal)) (hk : 1 ≤ chunkSize)
    (hnd : (obj.map Prod.fst).Nodup) :
    extractTranslationsChunked languageSet chunkSize obj lang =
      extractTranslationsIterative languageSet lang obj := by
  simpa [extractTranslationsChunked] using
    chunkedFold_eq languageSet lang hk obj [] hnd (by simp)

/-- Witness for C1: chunk size 1 splits a two-entry document into two chunks,
and the merged result coincides with the single-pass extraction. -/
theorem c1_chunked_extraction_identical_witness :
    1 ≤ 1 ∧
      (([("a", JVal.obj [("vi", JVal.str "X"), ("en", JVal.str "Y")]),
         ("g", JVal.obj [("b", JVal.obj [("vi", JVal.str "Z")])])].map Prod.fst).Nodup) ∧
      extractTranslationsChunked ["vi", "en"] 1
          [("a", JVal.obj [("vi", JVal.str "X"), ("en", JVal.str "Y")]),
           ("g", JVal.obj [("b", JVal.obj [("vi", JVal.str "Z")])])] "vi" =
        extractTranslationsIterative ["vi", "en"] "vi"
          [("a", JVal.obj [("vi", JVal.str "X"), ("en", JVal.str "Y")]),
           ("g", JVal.obj [("b", JVal.obj [("vi", JVal.str "Z")])])] :=
  ⟨Nat.le_refl 1, by decide,
    c1_chunked_extraction_identical ["vi", "en"] "vi" 1 _ (Nat.le_refl 1) (by decide)⟩

/-! ## Classification and shape lemmas -/

/-- For a requested language inside the language set, the code's
recurse-into-value condition collapses to pure key-set membership: the
truthiness test on `value[lang]` cannot fire unless the value has a language
key. -/
theorem isBranchStep_eq_of_mem {S : List String} {lang : String} (hmem : lang ∈ S)
    (fields : List (String × JVal)) :
    isBranchStep S lang fields = !hasLangKeys S fields := by
  by_cases h : truthy (langVal fields lang) = true
  · simp [isBranchStep, h, hasLangKeys_of_truthy_langVal hmem h]
  · simp only [Bool.not_eq_true] at h
    simp [isBranchStep, h]

/-- The branch skeleton of the output does not depend on which language of
the language set is requested. -/
theorem extractShape_language_independent (S : List String) {l1 l2 : String}
    (h1 : l1 ∈ S) (h2 : l2 ∈ S) (obj : List (String × JVal)) :
    extractShape S l1 obj = extractShape S l2 obj := by
  induction obj using extractShape.induct S l1 with
  | case1 => simp [extractShape]
  | case2 key rest fields h ih =>
    have hk : hasLangKeys S fields = true := hasLangKeys_of_truthy_langVal h1 h
    by_cases h2t : truthy (langVal fields l2) = true
    · simp [extractShape, h, hk, h2t, ih]
    · simp only [Bool.not_eq_true] at h2t
      simp [extractShape, h, hk, h2t, ih]
  | case3 key rest fields hnt hk ih =>
    by_cases h2t : truthy (langVal fields l2) = true
    · simp [extractShape, hnt, hk, h2t, ih]
    · simp only [Bool.not_eq_true] at h2t
      simp [extractShape, hnt, hk, h2t, ih]
  | case4 key rest fields hnt hk ihf ih =>
    have h2t : ¬truthy (langVal fields l2) = true := fun h =>
      hk (hasLangKeys_of_truthy_langVal h2 h)
    simp [extractShape, hnt, hk, h2t, ihf, ih]
  | case5 key value rest hnv ih =>
    cases value <;>
      first
        | exact absurd rfl (hnv _)
        | simp [extractShape, ih]

/-- Every key of an extraction output originates from an entry of the input
whose value is an object, emitted either as a leaf (truthy `value[lang]`) or
as a branch (no language keys at all). -/
theorem keys_extract_cases {S : List String} {l : String} {obj : List (String × JVal)}
    {k : String} (h : k ∈ (extractTranslationsIterative S l obj).map Prod.fst) :
    ∃ fields, (k, JVal.obj fields) ∈ obj ∧
      (truthy (langVal fields l) = true ∨
        (truthy (langVal fields l) = false ∧ hasLangKeys S fields = false)) := by
  induction obj using extractTranslationsIterative.induct S l with
  | case1 => simp [extractTranslationsIterative] at h
  | case2 key rest fields ht ih =>
    rw [extractTranslationsIterative] at h
    simp only [ht, if_pos, List.map_cons, List.mem_cons] at h
    rcases h with h | h
    · exact ⟨fields, by simp [h], Or.inl ht⟩
    · obtain ⟨f, hf, hc⟩ := ih h
      exact ⟨f, List.mem_cons_of_mem _ hf, hc⟩
  | case3 key rest fields hnt hk ih =>
    rw [extractTranslationsIterative] at h
    simp only [Bool.not_eq_true] at hnt
    simp only [hnt, hk, if_neg, if_pos, Bool.false_eq_true] at h
    obtain ⟨f, hf, hc⟩ := ih h
    exact ⟨f, List.mem_cons_of_mem _ hf, hc⟩
  | case4 key rest fields hnt hk ihf ih =>
    rw [extractTranslationsIterative] at h
    simp only [Bool.not_eq_true] at hnt hk
    rw [if_neg (by simp [hnt]), if_neg (by simp [hk])] at h
    simp only [List.map_cons, List.mem_cons] at h
    rcases h with h | h
    · exact ⟨fields, by simp [h], Or.inr ⟨hnt, hk⟩⟩
    · obtain ⟨f, hf, hc⟩ := ih h
      exact ⟨f, List.mem_cons_of_mem _ hf, hc⟩
  | case5 key value rest hnv ih =>
    have hstep : extractTranslationsIterative S l ((key, value) :: rest) =
        extractTranslationsIterative S l rest := by
      cases value <;>
        first
          | exact absurd rfl (hnv _)
          | simp [extractTranslationsIterative]
    rw [hstep] at h
    obtain ⟨f, hf, hc⟩ := ih h
    exact ⟨f, List.mem_cons_of_mem _ hf, hc⟩

/-- A leaf-classified entry contributes its key to the output. -/
theorem mem_keys_of_leaf {S : List String} {l : String} {obj : List (String × JVal)}
    {k : String} {fields : List (String × JVal)} (hmem : (k, JVal.obj fields) ∈ obj)
    (ht : truthy (langVal fields l) = true) :
    k ∈ (extractTranslationsIterative S l obj).map Prod.fst := by
  induction obj with
  | nil => simp at hmem
  | cons p rest ih =>
    rcases List.mem_cons.mp hmem with h | h
    · rw [← h, extractTranslationsIterative]
      simp [ht]
    · obtain ⟨key, value⟩ := p
      have htail := ih h
      cases value <;> rw [extractTranslationsIterative] <;>
        first
          | (split <;> [simp [htail]; skip] <;> split <;> simp [htail])
          | simp [htail]

/-- A branch-classified entry contributes its key to the output. -/
theorem mem_keys_of_branch {S : List String} {l : String} {obj : List (String × JVal)}
    {k : String} {fields : List (String × JVal)} (hmem : (k, JVal.obj fields) ∈ obj)
    (hnt : truthy (langVal fields l) = false) (hk : hasLangKeys S fields = false) :
    k ∈ (extractTranslationsIterative S l obj).map Prod.fst := by
  induction obj with
  | nil => simp at hmem
  | cons p rest ih =>
    rcases List.mem_cons.mp hmem with h | h
    · rw [← h, extractTranslationsIterative]
      simp [hnt, hk]
    · obtain ⟨key, value⟩ := p
      have htail := ih h
      cases value <;> rw [extractTranslationsIterative] <;>
        first
          | (split <;> [simp [htail]; skip] <;> split <;> simp [htail])
          | simp [htail]

/-- C5 counterexample:  The claim says the two languages' outputs diverge
only at Leaves where one language is missing; but the leaf test is the
truthiness of `value[lang]`, so the outputs also diverge at leaves where a
language is present with a falsy value.  Concretely, for
`{"a": {"vi": "X", "en": ""}}` with languages `["vi", "en"]`, the `en` key
is present on the leaf (with value `""`), yet the `vi` output keeps key `a`
and the `en` output omits it — a divergence at a leaf where `en` is not
missing. -/
theorem c5_structural_isomorphism_counterexample :
    jLookup [("vi", JVal.str "X"), ("en", JVal.str "")] "en" = some (JVal.str "") ∧
      extractTranslationsIterative ["vi", "en"] "vi"
          [("a", JVal.obj [("vi", JVal.str "X"), ("en", JVal.str "")])] =
        [("a", JVal.str "X")] ∧
      extractTranslationsIterative ["vi", "en"] "en"
          [("a", JVal.obj [("vi", JVal.str "X"), ("en", JVal.str "")])] = [] := by
  refine ⟨by simp [jLookup], ?_, ?_⟩ <;>
    simp [extractTranslationsIterative, langVal, jLookup, truthy, hasLangKeys]

/-- C5 amended:  For every document and any two requested languages in the
language set, leaf-vs-branch classification depends only on whether a node's
keys intersect the language set (the code's recurse condition `isBranchStep`
equals `!hasLangKeys`, identically for both languages), so the outputs for
the two languages have identical branch skeletons; divergence appears only
at Leaves where the value for one language is truthy and for the other
falsy — the other language's value being missing **or falsy** (e.g. the
empty string), not only missing. -/
theorem c5_structural_isomorphism (S : List String) (l1 l2 : String)
    (obj : List (String × JVal)) (h1 : l1 ∈ S) (h2 : l2 ∈ S) :
    (∀ fields : List (String × JVal),
        isBranchStep S l1 fields = !hasLangKeys S fields ∧
          isBranchStep S l1 fields = isBranchStep S l2 fields) ∧
      extractShape S l1 obj = extractShape S l2 obj ∧
      (∀ k, k ∈ (extractTranslationsIterative S l1 obj).map Prod.fst →
          k ∉ (extractTranslationsIterative S l2 obj).map Prod.fst →
          ∃ fields, (k, JVal.obj fields) ∈ obj ∧ hasLangKeys S fields = true ∧
            truthy (langVal fields l1) = true ∧ truthy (langVal fields l2) = false) := by
  refine ⟨fun fields => ⟨isBranchStep_eq_of_mem h1 fields, ?_⟩,
    extractShape_language_independent S h1 h2 obj, ?_⟩
  · rw [isBranchStep_eq_of_mem h1 fields, isBranchStep_eq_of_mem h2 fields]
  · intro k hk1 hk2
    obtain ⟨fields, hfmem, hcase⟩ := keys_extract_cases hk1
    rcases hcase with ht | ⟨hnt, hnk⟩
    · refine ⟨fields, hfmem, hasLangKeys_of_truthy_langVal h1 ht, ht, ?_⟩
      by_cases h2t : truthy (langVal fields l2) = true
      · exact absurd (mem_keys_of_leaf hfmem h2t) hk2
      · simpa using h2t
    · exfalso
      have h2t : truthy (langVal fields l2) = false := by
        by_cases hx : truthy (langVal fields l2) = true
        · exact absurd (hasLangKeys_of_truthy_langVal h2 hx) (by simp [hnk])
        · simpa using hx
      exact hk2 (mem_keys_of_branch hfmem h2t hnk)

/-- Witness for the amended C5: languages `vi`, `en` of the set
`["vi", "en"]`, on a document with one shared branch, one shared leaf, and
one `vi`-only leaf. -/
theorem c5_structural_isomorphism_witness :
    ("vi" ∈ ["vi", "en"] ∧ "en" ∈ ["vi", "en"]) ∧
      extractShape ["vi", "en"] "vi"
          [("g", JVal.obj [("a", JVal.obj [("vi", JVal.str "X"), ("en", JVal.str "Y")])]),
           ("p", JVal.obj [("vi", JVal.str "O")])] =
        extractShape ["vi", "en"] "en"
          [("g", JVal.obj [("a", JVal.obj [("vi", JVal.str "X"), ("en", JVal.str "Y")])]),
           ("p", JVal.obj [("vi", JVal.str "O")])] :=
  ⟨⟨by simp, by simp⟩,
    (c5_structural_isomorphism ["vi", "en"] "vi" "en"
      [("g", JVal.obj [("a", JVal.obj [("vi", JVal.str "X"), ("en", JVal.str "Y")])]),
       ("p", JVal.obj [("vi", JVal.str "O")])] (by simp) (by simp)).2.1⟩

/-- In an object with distinct keys, a key determines its value. -/
theorem nodup_mem_unique : ∀ {l : List (String × JVal)}, (l.map Prod.fst).Nodup →
    ∀ {k : String} {a b : JVal}, (k, a) ∈ l → (k, b) ∈ l → a = b := by
  intro l
  induction l with
  | nil => intro _ k a b ha; simp at ha
  | cons p rest ih =>
    intro hnd k a b ha hb
    obtain ⟨k0, v0⟩ := p
    simp only [List.map_cons, List.nodup_cons] at hnd
    rcases List.mem_cons.mp ha with ha0 | ha0
    · rcases List.mem_cons.mp hb with hb0 | hb0
      · rw [Prod.mk.injEq] at ha0 hb0
        rw [ha0.2, hb0.2]
      · exfalso
        rw [Prod.mk.injEq] at ha0
        exact hnd.1 (ha0.1 ▸ (List.mem_map_of_mem Prod.fst hb0))
    · rcases List.mem_cons.mp hb with hb0 | hb0
      · exfalso
        rw [Prod.mk.injEq] at hb0
        exact hnd.1 (hb0.1 ▸ (List.mem_map_of_mem Prod.fst ha0))
      · exact ih hnd.2 ha0 hb0

/-- A leaf-classified entry is emitted with exactly the value `value[lang]`. -/
theorem mem_extract_of_leaf {S : List String} {l : String} {obj : List (String × JVal)}
    {k : String} {fields : List (String × JVal)} (hmem : (k, JVal.obj fields) ∈ obj)
    (ht : truthy (langVal fields l) = true) :
    (k, langVal fields l) ∈ extractTranslationsIterative S l obj := by
  induction obj with
  | nil => simp at hmem
  | cons p rest ih =>
    rcases List.mem_cons.mp hmem with h | h
    · rw [← h, extractTranslationsIterative]
      simp [ht]
    · obtain ⟨key, value⟩ := p
      have htail := ih h
      cases value <;> rw [extractTranslationsIterative] <;>
        first
          | (split <;> [simp [htail]; skip] <;> split <;> simp [htail])
          | simp [htail]

/-- A branch-classified empty object is emitted as an empty object. -/
theorem mem_extract_of_empty_obj {S : List String} {l : String}
    {obj : List (String × JVal)} {k : String} (hmem : (k, JVal.obj []) ∈ obj) :
    (k, JVal.obj []) ∈ extractTranslationsIterative S l obj := by
  induction obj with
  | nil => simp at hmem
  | cons p rest ih =>
    rcases List.mem_cons.mp hmem with h | h
    · rw [← h, extractTranslationsIterative]
      simp [langVal, jLookup, truthy, hasLangKeys, extractTranslationsIterative]
    · obtain ⟨key, value⟩ := p
      have htail := ih h
      cases value <;> rw [extractTranslationsIterative] <;>
        first
          | (split <;> [simp [htail]; skip] <;> split <;> simp [htail])
          | simp [htail]

/-- C2 counterexample:  The claim says any value containing the
requested language code as a direct key is emitted as a leaf; but the code
tests the truthiness of `value[lang]`, not key membership.  Concretely, for
`{"a": {"vi": ""}}` with languages `["vi", "en"]` and requested language
`vi`, the value does contain `"vi"` as a direct key, yet key `a` is omitted
and `a -> ""` is not emitted. -/
theorem c2_leaf_resolution_counterexample :
    jLookup [("vi", JVal.str "")] "vi" = some (JVal.str "") ∧
      extractTranslationsIterative ["vi", "en"] "vi"
          [("a", JVal.obj [("vi", JVal.str "")])] = [] ∧
      ("a", JVal.str "") ∉ extractTranslationsIterative ["vi", "en"] "vi"
          [("a", JVal.obj [("vi", JVal.str "")])] := by
  refine ⟨by simp [jLookup], ?_, ?_⟩ <;>
    simp [extractTranslationsIterative, langVal, jLookup, truthy, hasLangKeys]

/-- C2 amended:  At any key whose value is a keyed (object, non-array)
structure that contains the requested language code as a direct key **with a
truthy value**, extract emits `key -> value[languageCode]` in the output —
the value verbatim, not recursed into. -/
theorem c2_leaf_resolution (S : List String) (lang : String)
    (obj : List (String × JVal)) (k : String) (fields : List (String × JVal)) (w : JVal)
    (hmem : (k, JVal.obj fields) ∈ obj) (hlook : jLookup fields lang = some w)
    (ht : truthy w = true) :
    (k, w) ∈ extractTranslationsIterative S lang obj := by
  have hlv : langVal fields lang = w := by simp [langVal, hlook]
  have := mem_extract_of_leaf (S := S) hmem (by rw [hlv]; exact ht)
  rwa [hlv] at this

/-- Witness for the amended C2: `{"a": {"vi": "X", "extra": {"deep": "D"}}}`
emits `a -> "X"` for `vi` — the looked-up value itself. -/
theorem c2_leaf_resolution_witness :
    jLookup [("vi", JVal.str "X"), ("extra", JVal.obj [("deep", JVal.str "D")])] "vi" =
        some (JVal.str "X") ∧
      truthy (JVal.str "X") = true ∧
      ("a", JVal.str "X") ∈ extractTranslationsIterative ["vi", "en"] "vi"
        [("a", JVal.obj [("vi", JVal.str "X"), ("extra", JVal.obj [("deep", JVal.str "D")])])] :=
  ⟨by simp [jLookup], rfl,
    c2_leaf_resolution ["vi", "en"] "vi" _ "a" _ (JVal.str "X")
      (List.Mem.head _) (by simp [jLookup]) rfl⟩

/-- C7:  At any key whose object value's keys intersect the language set
but whose `value[lang]` is not truthy, the key is omitted from that
language's output; concretely `{"a": {"vi": "X"}}` with languages
`["vi", "en"]` yields the `en` output `{}`. -/
theorem c7_partial_coverage_key_omitted (S : List String) (lang : String)
    (obj : List (String × JVal)) (k : String) (fields : List (String × JVal))
    (hnd : (obj.map Prod.fst).Nodup) (hmem : (k, JVal.obj fields) ∈ obj)
    (hk : hasLangKeys S fields = true) (hnt : truthy (langVal fields lang) = false) :
    k ∉ (extractTranslationsIterative S lang obj).map Prod.fst ∧
      extractTranslationsIterative ["vi", "en"] "en"
        [("a", JVal.obj [("vi", JVal.str "X")])] = [] := by
  constructor
  · intro hin
    obtain ⟨fields2, hmem2, hcase⟩ := keys_extract_cases hin
    have heq : JVal.obj fields = JVal.obj fields2 := nodup_mem_unique hnd hmem hmem2
    rw [JVal.obj.injEq] at heq
    subst heq
    rcases hcase with hc | hc
    · rw [hnt] at hc; exact Bool.false_ne_true hc
    · rw [hk] at hc; exact Bool.true_eq_false.mp hc.2
  · simp [extractTranslationsIterative, langVal, jLookup, truthy, hasLangKeys]

/-- Witness for C7 at the concrete input `{"a": {"vi": "X"}}`, requested
language `en` of `["vi", "en"]`. -/
theorem c7_partial_coverage_key_omitted_witness :
    ([("a", JVal.obj [("vi", JVal.str "X")])].map Prod.fst).Nodup ∧
      hasLangKeys ["vi", "en"] [("vi", JVal.str "X")] = true ∧
      truthy (langVal [("vi", JVal.str "X")] "en") = false ∧
      "a" ∉ (extractTranslationsIterative ["vi", "en"] "en"
        [("a", JVal.obj [("vi", JVal.str "X")])]).map Prod.fst :=
  ⟨by decide, by decide, by decide,
    (c7_partial_coverage_key_omitted ["vi", "en"] "en" _ "a" [("vi", JVal.str "X")]
      (by decide) (List.Mem.head _) (by decide) (by decide)).1⟩

/-- C8:  A key whose value is not a keyed structure (an array, scalar, or
null) is skipped and contributes nothing to any language's output;
concretely `{"a": ["x", "y"]}` yields `{}` for every language. -/
theorem c8_non_object_value_skipped (S : List String) (lang : String)
    (obj : List (String × JVal)) (k : String) (v : JVal)
    (hnd : (obj.map Prod.fst).Nodup) (hmem : (k, v) ∈ obj)
    (hnv : ∀ fields, v ≠ JVal.obj fields) :
    k ∉ (extractTranslationsIterative S lang obj).map Prod.fst ∧
      ∀ lang2, extractTranslationsIterative ["vi", "en"] lang2
        [("a", JVal.arr [JVal.str "x", JVal.str "y"])] = [] := by
  constructor
  · intro hin
    obtain ⟨fields2, hmem2, _⟩ := keys_extract_cases hin
    exact hnv fields2 (nodup_mem_unique hnd hmem hmem2)
  · intro lang2
    simp [extractTranslationsIterative]

/-- Witness for C8 at the concrete input `{"a": ["x", "y"]}`. -/
theorem c8_non_object_value_skipped_witness :
    ([("a", JVal.arr [JVal.str "x", JVal.str "y"])].map Prod.fst).Nodup ∧
      "a" ∉ (extractTranslationsIterative ["vi", "en"] "vi"
        [("a", JVal.arr [JVal.str "x", JVal.str "y"])]).map Prod.fst :=
  ⟨by decide,
    (c8_non_object_value_skipped ["vi", "en"] "vi" _ "a"
      (JVal.arr [JVal.str "x", JVal.str "y"]) (by decide) (List.Mem.head _)
      (fun fields h => by cases h)).1⟩

/-- C9:  A key whose value is an object with zero keys is treated as a
branch and produces an empty nested object under that key in every
language's output. -/
theorem c9_empty_object_is_branch (S : List String) (lang : String)
    (obj : List (String × JVal)) (k : String) (hmem : (k, JVal.obj []) ∈ obj) :
    (k, JVal.obj []) ∈ extractTranslationsIterative S lang obj :=
  mem_extract_of_empty_obj hmem

/-- Witness for C9: `{"a": {}}` yields `{"a": {}}` for language `zz` as
well as for each configured language. -/
theorem c9_empty_object_is_branch_witness :
    (("a", JVal.obj []) ∈ [("a", JVal.obj [])]) ∧
      ("a", JVal.obj []) ∈ extractTranslationsIterative ["vi", "en"] "zz"
        [("a", JVal.obj [])] :=
  ⟨List.Mem.head _,
    c9_empty_object_is_branch ["vi", "en"] "zz" _ "a" (List.Mem.head _)⟩

/-- C10:  If a node's value maps the requested language code (a member of
the language set) to a falsy value — in particular the empty string — the
key is omitted from that language's output even though the language key is
present: the leaf test is the truthiness of `value[lang]`, not key
membership.  This holds in the recursive, class-iterative, and worker
extractors alike. -/
theorem c10_falsy_language_value_omitted (S : List String) (lang : String)
    (obj : List (String × JVal)) (k : String) (fields : List (String × JVal)) (w : JVal)
    (hS : lang ∈ S) (hnd : (obj.map Prod.fst).Nodup) (hmem : (k, JVal.obj fields) ∈ obj)
    (hlook : jLookup fields lang = some w) (hw : truthy w = false) :
    k ∉ (extractTranslations obj S lang).map Prod.fst ∧
      k ∉ (extractTranslationsIterative S lang obj).map Prod.fst ∧
      k ∉ (workerExtractTranslationsIterative S lang obj).map Prod.fst := by
  have hlv : langVal fields lang = w := by simp [langVal, hlook]
  have hnt : truthy (langVal fields lang) = false := by rw [hlv]; exact hw
  have hk : hasLangKeys S fields = true := by
    simp only [hasLangKeys, List.any_eq_true]
    exact ⟨(lang, w), jLookup_mem hlook, by simpa using hS⟩
  have hiter : k ∉ (extractTranslationsIterative S lang obj).map Prod.fst :=
    (c7_partial_coverage_key_omitted S lang obj k fields hnd hmem hk hnt).1
  refine ⟨?_, hiter, ?_⟩
  · rw [extractTranslations, ← extractTranslationsIterative_eq_processObject]
    exact hiter
  · rw [workerExtractTranslationsIterative_eq]
    exact hiter

/-- Witness for C10 at the concrete input `{"a": {"vi": ""}}`, requested
language `vi` of `["vi", "en"]`: all three extractors omit key `a`. -/
theorem c10_falsy_language_value_omitted_witness :
    "vi" ∈ ["vi", "en"] ∧
      jLookup [("vi", JVal.str "")] "vi" = some (JVal.str "") ∧
      truthy (JVal.str "") = false ∧
      "a" ∉ (extractTranslations [("a", JVal.obj [("vi", JVal.str "")])]
        ["vi", "en"] "vi").map Prod.fst ∧
      "a" ∉ (extractTranslationsIterative ["vi", "en"] "vi"
        [("a", JVal.obj [("vi", JVal.str "")])]).map Prod.fst ∧
      "a" ∉ (workerExtractTranslationsIterative ["vi", "en"] "vi"
        [("a", JVal.obj [("vi", JVal.str "")])]).map Prod.fst := by
  have h := c10_falsy_language_value_omitted ["vi", "en"] "vi"
    [("a", JVal.obj [("vi", JVal.str "")])] "a" [("vi", JVal.str "")] (JVal.str "")
    (by simp) (by decide) (List.Mem.head _) (by simp [jLookup]) rfl
  exact ⟨by simp, by simp [jLookup], rfl, h.1, h.2.1, h.2.2⟩

/-- C3 counterexample:  The claim says no writer's outcome is silently
swallowed (partial success distinguishable).  But `Promise.all` rejects with
the first rejection only: with the `en` write failing, the batch call
returns the very same outcome whether the `vi` write succeeded or failed —
the second writer's outcome is swallowed. -/
theorem c3_batch_write_counterexample :
    writeFilesInBatch
        (fun p => if p = "out/en/a.json"
          then Except.error "EACCES: permission denied, open out/en/a.json"
          else Except.ok ())
        [{ lang := "en", outputPath := "out/en/a.json", outputContent := [] },
         { lang := "vi", outputPath := "out/vi/a.json", outputContent := [] }] =
      writeFilesInBatch
        (fun p => if p = "out/en/a.json"
          then Except.error "EACCES: permission denied, open out/en/a.json"
          else Except.error "EROFS: read-only file system, open out/vi/a.json")
        [{ lang := "en", outputPath := "out/en/a.json", outputContent := [] },
         { lang := "vi", outputPath := "out/vi/a.json", outputContent := [] }] ∧
      (fun p => if p = "out/en/a.json"
          then Except.error "EACCES: permission denied, open out/en/a.json"
          else Except.ok ()) "out/vi/a.json" = Except.ok () ∧
      ((fun p => if p = "out/en/a.json"
          then Except.error "EACCES: permission denied, open out/en/a.json"
          else Except.error "EROFS: read-only file system, open out/vi/a.json") :
        String → Except String Unit) "out/vi/a.json" =
        Except.error "EROFS: read-only file system, open out/vi/a.json" := by
  refine ⟨?_, by simp, by simp⟩
  simp [writeFilesInBatch, promiseAll]

/-- C3 amended:  All writes are issued and the batch call fulfils exactly
when every write fulfils; any failure is reported as the error of one of the
failed writes (the fs rejection reason, which carries that destination
path).  When one write fails, the outcomes of the remaining writers are not
reported: only total success versus a single failure is observable. -/
theorem c3_batch_write_settlement (writeOutcome : String → Except String Unit)
    (fileResults : List FileWriteResult) :
    (writeFilesInBatch writeOutcome fileResults = Except.ok () ↔
      ∀ r ∈ fileResults, writeOutcome r.outputPath = Except.ok ()) ∧
    (∀ e, writeFilesInBatch writeOutcome fileResults = Except.error e →
      ∃ r ∈ fileResults, writeOutcome r.outputPath = Except.error e) := by
  induction fileResults with
  | nil => simp [writeFilesInBatch, promiseAll]
  | cons r rest ih =>
    cases h : writeOutcome r.outputPath with
    | ok u =>
      cases u
      constructor
      · rw [writeFilesInBatch, List.map_cons, h, promiseAll]
        rw [writeFilesInBatch] at ih
        simp only [List.mem_cons, forall_eq_or_imp, h, true_and]
        exact ih.1
      · intro e he
        rw [writeFilesInBatch, List.map_cons, h, promiseAll] at he
        rw [writeFilesInBatch] at ih
        obtain ⟨r2, hr2, hout⟩ := ih.2 e he
        exact ⟨r2, List.mem_cons_of_mem _ hr2, hout⟩
    | error e0 =>
      constructor
      · rw [writeFilesInBatch, List.map_cons, h, promiseAll]
        simp only [List.mem_cons, forall_eq_or_imp, h]
        constructor
        · intro hfalse; cases hfalse
        · rintro ⟨hfalse, -⟩; cases hfalse
      · intro e he
        rw [writeFilesInBatch, List.map_cons, h, promiseAll] at he
        rw [Except.error.injEq] at he
        exact ⟨r, List.mem_cons_self r rest, he ▸ h⟩

/-- Witness for the amended C3: a single failing write is reported as the
error of a failed write in the batch. -/
theorem c3_batch_write_settlement_witness :
    ∃ r ∈ [{ lang := "en", outputPath := "out/en/a.json",
             outputContent := [] : FileWriteResult }],
      (fun _ => (Except.error "EACCES: permission denied, open out/en/a.json" :
        Except String Unit)) r.outputPath =
        Except.error "EACCES: permission denied, open out/en/a.json" :=
  (c3_batch_write_settlement
      (fun _ => Except.error "EACCES: permission denied, open out/en/a.json")
      [{ lang := "en", outputPath := "out/en/a.json", outputContent := [] }]).2
    "EACCES: permission denied, open out/en/a.json" rfl

/-- C4 evaluation at the failing input:  a worker whose parse throws posts
the structured failure message containing the error description — but
`runWorker` resolves that message like a success, and the orchestrator
flattens the failure object into the collected results next to its sibling's
genuine results instead of surfacing a file-level failure. -/
theorem c4_worker_failure_resolved_as_result :
    workerMain (Except.error "Unexpected end of JSON input") "stacktrace"
        "out" "a.json" ["vi", "en"] 1000 =
      WorkerMessage.failure "Unexpected end of JSON input" "stacktrace" ∧
    runWorker (WorkerMessage.failure "Unexpected end of JSON input" "stacktrace") =
      Except.ok (WorkerMessage.failure "Unexpected end of JSON input" "stacktrace") ∧
    processFilesInParallel
        [workerMain (Except.ok [("hello", JVal.obj [("vi", JVal.str "X")])])
          "st0" "out" "b.json" ["vi"] 1000,
         workerMain (Except.error "Unexpected end of JSON input") "stacktrace"
          "out" "a.json" ["vi", "en"] 1000] =
      [CollectedItem.fileResult
        { lang := "vi", outputPath := "out/vi/b.json",
          outputContent := [("hello", JVal.str "X")] },
       CollectedItem.failureObject "Unexpected end of JSON input" "stacktrace"] := by
  refine ⟨rfl, rfl, ?_⟩
  simp [processFilesInParallel, workerMain, flattenMessage, pathJoin3,
        extractTranslationsChunked, chunksOf, jsFromEntries, jsAssign, jsSet,
        extractTranslationsIterative, langVal, jLookup, truthy, hasLangKeys]

/-- C6:  Every file whose size is below the 100 KB threshold is processed in
the caller's context (main thread), never dispatched to a worker; every file
at or above the threshold is dispatched to a worker. -/
theorem c6_size_threshold_routing (fileSizeBytes : Nat) :
    (fileSizeBytes < 102400 →
      processFileWithWorkerRoute fileSizeBytes = Route.mainThread) ∧
    (102400 ≤ fileSizeBytes →
      processFileWithWorkerRoute fileSizeBytes = Route.workerThread) := by
  have key : ((fileSizeBytes : ℚ) / 1024 < 100) ↔ (fileSizeBytes < 102400) := by
    rw [div_lt_iff₀ (by norm_num : (0 : ℚ) < 1024)]
    have h1024 : (100 : ℚ) * 1024 = ((102400 : ℕ) : ℚ) := by norm_num
    rw [h1024, Nat.cast_lt]
  constructor
  · intro h
    simp [processFileWithWorkerRoute, key.mpr h]
  · intro h
    have hnot : ¬((fileSizeBytes : ℚ) / 1024 < 100) := by rw [key]; omega
    simp [processFileWithWorkerRoute, hnot]

/-- Witness for C6: a 5000-byte file runs on the main thread; a
102400-byte (exactly 100 KB) file goes to a worker. -/
theorem c6_size_threshold_routing_witness :
    (5000 < 102400 ∧ processFileWithWorkerRoute 5000 = Route.mainThread) ∧
      (102400 ≤ 102400 ∧ processFileWithWorkerRoute 102400 = Route.workerThread) :=
  ⟨⟨by norm_num, (c6_size_threshold_routing 5000).1 (by norm_num)⟩,
   ⟨Nat.le_refl 102400, (c6_size_threshold_routing 102400).2 (Nat.le_refl 102400)⟩⟩

/-! ## Lemmas about the step model of the iterative loop -/

/-- Assignment then lookup: `jsSet` stores `v` under `a` and leaves every
other key alone. -/
theorem jLookup_jsSet (tree : List (String × JVal)) (a : String) (v : JVal)
    (x : String) :
    jLookup (jsSet tree a v) x = if x = a then some v else jLookup tree x := by
  induction tree with
  | nil =>
    by_cases hx : x = a
    · simp [jsSet, jLookup, hx]
    · simp [jsSet, jLookup, hx, Ne.symm hx]
  | cons p rest ih =>
    obtain ⟨k0, v0⟩ := p
    by_cases hk : k0 = a
    · subst hk
      by_cases hx : x = k0
      · simp [jsSet, jLookup, hx]
      · simp [jsSet, jLookup, hx, Ne.symm hx]
    · by_cases hx : k0 = x
      · subst hx
        simp [jsSet, jLookup, hk, Ne.symm hk]
      · simp [jsSet, jLookup, hk, hx, ih]

/-- Setting the same key twice keeps only the second value. -/
theorem jsSet_jsSet_same (tree : List (String × JVal)) (a : String) (v1 v2 : JVal) :
    jsSet (jsSet tree a v1) a v2 = jsSet tree a v2 := by
  induction tree with
  | nil => simp [jsSet]
  | cons p rest ih =>
    obtain ⟨k0, v0⟩ := p
    by_cases hk : k0 = a
    · simp [jsSet, hk]
    · simp [jsSet, hk, ih]

/-- Descending `appendAt` one step when the addressed key holds an object. -/
theorem appendAt_cons_found {tree : List (String × JVal)} {p : String}
    {fs : List (String × JVal)} (h : jLookup tree p = some (JVal.obj fs))
    (ps : List String) (e : List (String × JVal)) :
    appendAt (p :: ps) e tree = jsSet tree p (JVal.obj (appendAt ps e fs)) := by
  induction tree with
  | nil => simp [jLookup] at h
  | cons q rest ih =>
    obtain ⟨k0, v0⟩ := q
    by_cases hk : k0 = p
    · subst hk
      simp only [jLookup, if_true, eq_self_iff_true] at h
      rw [Option.some.injEq] at h
      subst h
      simp [appendAt, jsSet]
    · rw [jLookup, if_neg hk] at h
      cases v0 <;> simp [appendAt, jsSet, hk, ih h]

/-- `appendAt` is the identity when the addressed key does not hold an
object. -/
theorem appendAt_cons_not_found {tree : List (String × JVal)} {p : String}
    (h : ∀ fs, jLookup tree p ≠ some (JVal.obj fs))
    (ps : List String) (e : List (String × JVal)) :
    appendAt (p :: ps) e tree = tree := by
  induction tree with
  | nil => simp [appendAt]
  | cons q rest ih =>
    obtain ⟨k0, v0⟩ := q
    by_cases hk : k0 = p
    · subst hk
      cases v0 with
      | obj fs => exact absurd (by simp [jLookup]) (h fs)
      | null => simp [appendAt]
      | bool b => simp [appendAt]
      | num n => simp [appendAt]
      | str s => simp [appendAt]
      | arr elems => simp [appendAt]
    · have htail : ∀ fs, jLookup rest p ≠ some (JVal.obj fs) := by
        intro fs hfs
        refine h fs ?_
        rw [jLookup, if_neg hk]
        exact hfs
      cases v0 <;> simp [appendAt, hk, ih htail]

/-- Descending `setAtPath` one step when the addressed key holds an
object. -/
theorem setAtPath_cons_found {tree : List (String × JVal)} {p : String}
    {fs : List (String × JVal)} (h : jLookup tree p = some (JVal.obj fs))
    (ps : List String) (k : String) (v : JVal) :
    setAtPath (p :: ps) k v tree = jsSet tree p (JVal.obj (setAtPath ps k v fs)) := by
  induction tree with
  | nil => simp [jLookup] at h
  | cons q rest ih =>
    obtain ⟨k0, v0⟩ := q
    by_cases hk : k0 = p
    · subst hk
      simp only [jLookup, if_true, eq_self_iff_true] at h
      rw [Option.some.injEq] at h
      subst h
      simp [setAtPath, jsSet]
    · rw [jLookup, if_neg hk] at h
      cases v0 <;> simp [setAtPath, jsSet, hk, ih h]

/-- Appending nothing changes nothing. -/
theorem appendAt_nil_entries : ∀ (p : List String) (tree : List (String × JVal)),
    appendAt p [] tree = tree := by
  intro p
  induction p with
  | nil => intro tree; simp [appendAt]
  | cons a ps ih =>
    intro tree
    induction tree with
    | nil => simp [appendAt]
    | cons q rest ihtree =>
      obtain ⟨k0, v0⟩ := q
      by_cases hk : k0 = a
      · subst hk
        cases v0 <;> simp [appendAt, ih]
      · cases v0 <;> simp [appendAt, hk, ihtree]

/-- Reading an extended path after appending at its prefix: the addressed
object grows by the appended entries, and reading continues inside them. -/
theorem getAtPath_appendAt_extend :
    ∀ (p : List String) (r cur e : List (String × JVal)) (q : List String),
      getAtPath r p = some cur →
      getAtPath (appendAt p e r) (p ++ q) = getAtPath (cur ++ e) q := by
  intro p
  induction p with
  | nil =>
    intro r cur e q h
    simp only [getAtPath, Option.some.injEq] at h
    subst h
    simp [appendAt, getAtPath]
  | cons a ps ih =>
    intro r cur e q h
    rw [getAtPath] at h
    cases hl : jLookup r a with
    | none => rw [hl] at h; exact absurd h (by simp)
    | some w =>
      cases w with
      | obj fs =>
        rw [hl] at h
        rw [appendAt_cons_found hl, List.cons_append, getAtPath, jLookup_jsSet]
        simp only [if_pos rfl]
        exact ih fs cur e q h
      | null => rw [hl] at h; exact absurd h (by simp)
      | bool b => rw [hl] at h; exact absurd h (by simp)
      | num n => rw [hl] at h; exact absurd h (by simp)
      | str s => rw [hl] at h; exact absurd h (by simp)
      | arr elems => rw [hl] at h; exact absurd h (by simp)

/-- Appending under one path is invisible under any diverging path. -/
theorem getAtPath_appendAt_diverge {p q : List String} (hd : Diverge p q) :
    ∀ (r e : List (String × JVal)),
      getAtPath (appendAt p e r) q = getAtPath r q := by
  induction hd with
  | head hab =>
    rename_i a b p0 q0
    intro r e
    cases hl : jLookup r a with
    | none =>
      rw [appendAt_cons_not_found (fun fs hfs => by rw [hl] at hfs; cases hfs)]
    | some w =>
      cases w with
      | obj fs =>
        rw [appendAt_cons_found hl, getAtPath, getAtPath, jLookup_jsSet,
          if_neg (Ne.symm hab)]
      | null => rw [appendAt_cons_not_found (fun fs hfs => by rw [hl] at hfs; cases hfs)]
      | bool x => rw [appendAt_cons_not_found (fun fs hfs => by rw [hl] at hfs; cases hfs)]
      | num x => rw [appendAt_cons_not_found (fun fs hfs => by rw [hl] at hfs; cases hfs)]
      | str x => rw [appendAt_cons_not_found (fun fs hfs => by rw [hl] at hfs; cases hfs)]
      | arr x => rw [appendAt_cons_not_found (fun fs hfs => by rw [hl] at hfs; cases hfs)]
  | cons a hd2 ih =>
    intro r e
    cases hl : jLookup r a with
    | none =>
      rw [appendAt_cons_not_found (fun fs hfs => by rw [hl] at hfs; cases hfs)]
    | some w =>
      cases w with
      | obj fs =>
        rw [appendAt_cons_found hl, getAtPath, getAtPath, jLookup_jsSet, if_pos rfl, hl]
        exact ih fs e
      | null => rw [appendAt_cons_not_found (fun fs hfs => by rw [hl] at hfs; cases hfs)]
      | bool x => rw [appendAt_cons_not_found (fun fs hfs => by rw [hl] at hfs; cases hfs)]
      | num x => rw [appendAt_cons_not_found (fun fs hfs => by rw [hl] at hfs; cases hfs)]
      | str x => rw [appendAt_cons_not_found (fun fs hfs => by rw [hl] at hfs; cases hfs)]
      | arr x => rw [appendAt_cons_not_found (fun fs hfs => by rw [hl] at hfs; cases hfs)]

/-- Writing a fresh key into the object addressed by a path is appending a
single entry to it. -/
theorem setAtPath_eq_appendAt :
    ∀ (p : List String) (r cur : List (String × JVal)) (k : String) (v : JVal),
      getAtPath r p = some cur → k ∉ cur.map Prod.fst →
      setAtPath p k v r = appendAt p [(k, v)] r := by
  intro p
  induction p with
  | nil =>
    intro r cur k v h hk
    simp only [getAtPath, Option.some.injEq] at h
    subst h
    simp [setAtPath, appendAt, jsSet_of_not_mem v hk]
  | cons a ps ih =>
    intro r cur k v h hk
    rw [getAtPath] at h
    cases hl : jLookup r a with
    | none => rw [hl] at h; exact absurd h (by simp)
    | some w =>
      cases w with
      | obj fs =>
        rw [hl] at h
        rw [setAtPath_cons_found hl, appendAt_cons_found hl, ih fs cur k v h hk]
      | null => rw [hl] at h; exact absurd h (by simp)
      | bool b => rw [hl] at h; exact absurd h (by simp)
      | num n => rw [hl] at h; exact absurd h (by simp)
      | str s => rw [hl] at h; exact absurd h (by simp)
      | arr elems => rw [hl] at h; exact absurd h (by simp)

/-- Consecutive appends at the same path accumulate. -/
theorem appendAt_append :
    ∀ (p : List String) (e1 e2 : List (String × JVal)) (r : List (String × JVal)),
      appendAt p (e1 ++ e2) r = appendAt p e2 (appendAt p e1 r) := by
  intro p
  induction p with
  | nil => intro e1 e2 r; simp [appendAt]
  | cons a ps ih =>
    intro e1 e2 r
    cases hl : jLookup r a with
    | none =>
      have hnf : ∀ fs, jLookup r a ≠ some (JVal.obj fs) := fun fs hfs => by
        rw [hl] at hfs; cases hfs
      rw [appendAt_cons_not_found hnf, appendAt_cons_not_found hnf,
        appendAt_cons_not_found hnf]
    | some w =>
      cases w with
      | obj fs =>
        have h2 : jLookup (jsSet r a (JVal.obj (appendAt ps e1 fs))) a
            = some (JVal.obj (appendAt ps e1 fs)) := by
          rw [jLookup_jsSet]; simp
        rw [appendAt_cons_found hl, appendAt_cons_found hl,
          appendAt_cons_found h2, jsSet_jsSet_same, ih]
      | null =>
        have hnf : ∀ fs, jLookup r a ≠ some (JVal.obj fs) := fun fs hfs => by
          rw [hl] at hfs; cases hfs
        rw [appendAt_cons_not_found hnf, appendAt_cons_not_found hnf,
          appendAt_cons_not_found hnf]
      | bool b =>
        have hnf : ∀ fs, jLookup r a ≠ some (JVal.obj fs) := fun fs hfs => by
          rw [hl] at hfs; cases hfs
        rw [appendAt_cons_not_found hnf, appendAt_cons_not_found hnf,
          appendAt_cons_not_found hnf]
      | num n =>
        have hnf : ∀ fs, jLookup r a ≠ some (JVal.obj fs) := fun fs hfs => by
          rw [hl] at hfs; cases hfs
        rw [appendAt_cons_not_found hnf, appendAt_cons_not_found hnf,
          appendAt_cons_not_found hnf]
      | str s =>
        have hnf : ∀ fs, jLookup r a ≠ some (JVal.obj fs) := fun fs hfs => by
          rw [hl] at hfs; cases hfs
        rw [appendAt_cons_not_found hnf, appendAt_cons_not_found hnf,
          appendAt_cons_not_found hnf]
      | arr elems =>
        have hnf : ∀ fs, jLookup r a ≠ some (JVal.obj fs) := fun fs hfs => by
          rw [hl] at hfs; cases hfs
        rw [appendAt_cons_not_found hnf, appendAt_cons_not_found hnf,
          appendAt_cons_not_found hnf]

/-- Appending under a key that does not occur in a leading block of entries
only touches the later block. -/
theorem appendAt_localize :
    ∀ (a : List (String × JVal)) (k : String) (ks : List String)
      (e b : List (String × JVal)), k ∉ a.map Prod.fst →
      appendAt (k :: ks) e (a ++ b) = a ++ appendAt (k :: ks) e b := by
  intro a
  induction a with
  | nil => intro k ks e b _; simp
  | cons q rest ih =>
    intro k ks e b hk
    obtain ⟨k0, v0⟩ := q
    simp only [List.map_cons, List.mem_cons] at hk
    push_neg at hk
    cases v0 <;> simp [appendAt, Ne.symm hk.1, ih k ks e b hk.2]

/-- Filling a branch hole: appending `e` under `path ++ [k]`, where the
object at `path` holds the entry `(k, obj fs)` behind the already-present
entries `cur` (which do not contain `k`), extends that entry to
`(k, obj (fs ++ e))`. -/
theorem appendAt_fill :
    ∀ (p : List String) (r cur : List (String × JVal)) (k : String)
      (fs tail e : List (String × JVal)),
      getAtPath r p = some cur → k ∉ cur.map Prod.fst →
      appendAt (p ++ [k]) e (appendAt p ((k, JVal.obj fs) :: tail) r)
        = appendAt p ((k, JVal.obj (fs ++ e)) :: tail) r := by
  intro p
  induction p with
  | nil =>
    intro r cur k fs tail e h hk
    simp only [getAtPath, Option.some.injEq] at h
    subst h
    rw [List.nil_append, appendAt, appendAt, appendAt_localize r k [] e _ hk]
    simp [appendAt]
  | cons a ps ih =>
    intro r cur k fs tail e h hk
    rw [getAtPath] at h
    cases hl : jLookup r a with
    | none => rw [hl] at h; exact absurd h (by simp)
    | some w =>
      cases w with
      | obj fs1 =>
        rw [hl] at h
        have h2 : jLookup (jsSet r a (JVal.obj (appendAt ps ((k, JVal.obj fs) :: tail) fs1))) a
            = some (JVal.obj (appendAt ps ((k, JVal.obj fs) :: tail) fs1)) := by
          rw [jLookup_jsSet]; simp
        rw [appendAt_cons_found hl, List.cons_append, appendAt_cons_found h2,
          jsSet_jsSet_same, ih fs1 cur k fs tail e h hk, appendAt_cons_found hl]
      | null => rw [hl] at h; exact absurd h (by simp)
      | bool b => rw [hl] at h; exact absurd h (by simp)
      | num n => rw [hl] at h; exact absurd h (by simp)
      | str s => rw [hl] at h; exact absurd h (by simp)
      | arr elems => rw [hl] at h; exact absurd h (by simp)

/-- One loop iteration, characterised: processing a frame whose target
(addressed by `tpath`) currently holds `cur`, with fresh and distinct source
keys, appends exactly the frame's direct entries to the target and pushes
exactly the frame's branch subframes. -/
theorem processFrame_spec (S : List String) (lang : String) (tpath : List String) :
    ∀ (source r cur : List (String × JVal)),
      getAtPath r tpath = some cur →
      (source.map Prod.fst).Nodup →
      (∀ x ∈ source.map Prod.fst, x ∉ cur.map Prod.fst) →
      processFrame S lang tpath source r =
        (appendAt tpath (directEntries S lang source) r,
          branchFrames S lang tpath source) := by
  intro source
  induction source with
  | nil =>
    intro r cur h _ _
    simp [processFrame, directEntries, branchFrames, appendAt_nil_entries]
  | cons p rest ih =>
    intro r cur h hnd hfresh
    obtain ⟨key, value⟩ := p
    simp only [List.map_cons, List.nodup_cons] at hnd
    have hkey : key ∉ cur.map Prod.fst := hfresh key (by simp)
    cases value with
    | obj fields =>
      cases h1 : truthy (langVal fields lang) with
      | true =>
        have hset : setAtPath tpath key (langVal fields lang) r
            = appendAt tpath [(key, langVal fields lang)] r :=
          setAtPath_eq_appendAt tpath r cur key (langVal fields lang) h hkey
        have hget : getAtPath (appendAt tpath [(key, langVal fields lang)] r) tpath
            = some (cur ++ [(key, langVal fields lang)]) := by
          have := getAtPath_appendAt_extend tpath r cur [(key, langVal fields lang)] [] h
          simpa [getAtPath] using this
        have hstep := ih (appendAt tpath [(key, langVal fields lang)] r)
          (cur ++ [(key, langVal fields lang)]) hget hnd.2 (by
            intro x hx
            simp only [List.map_append, List.mem_append, List.map_cons, List.map_nil,
              List.mem_cons, List.not_mem_nil, or_false]
            push_neg
            exact ⟨hfresh x (by simp [hx]), fun hxk => hnd.1 (hxk ▸ hx)⟩)
        simp only [processFrame, h1, if_pos, directEntries, branchFrames]
        rw [hset, hstep, ← appendAt_append]
        simp
      | false =>
        cases h2 : hasLangKeys S fields with
        | true =>
          have hstep := ih r cur h hnd.2 (fun x hx => hfresh x (by simp [hx]))
          simp only [processFrame, h1, h2, directEntries, branchFrames]
          simp [hstep]
        | false =>
          have hset : setAtPath tpath key (JVal.obj []) r
              = appendAt tpath [(key, JVal.obj [])] r :=
            setAtPath_eq_appendAt tpath r cur key (JVal.obj []) h hkey
          have hget : getAtPath (appendAt tpath [(key, JVal.obj [])] r) tpath
              = some (cur ++ [(key, JVal.obj [])]) := by
            have := getAtPath_appendAt_extend tpath r cur [(key, JVal.obj [])] [] h
            simpa [getAtPath] using this
          have hstep := ih (appendAt tpath [(key, JVal.obj [])] r)
            (cur ++ [(key, JVal.obj [])]) hget hnd.2 (by
              intro x hx
              simp only [List.map_append, List.mem_append, List.map_cons, List.map_nil,
                List.mem_cons, List.not_mem_nil, or_false]
              push_neg
              exact ⟨hfresh x (by simp [hx]), fun hxk => hnd.1 (hxk ▸ hx)⟩)
          simp only [processFrame, h1, h2, directEntries, branchFrames]
          rw [hset]
          simp only [hstep, ← appendAt_append]
          simp
    | null =>
      have hstep := ih r cur h hnd.2 (fun x hx => hfresh x (by simp [hx]))
      simp [processFrame, directEntries, branchFrames, hstep]
    | bool b =>
      have hstep := ih r cur h hnd.2 (fun x hx => hfresh x (by simp [hx]))
      simp [processFrame, directEntries, branchFrames, hstep]
    | num n =>
      have hstep := ih r cur h hnd.2 (fun x hx => hfresh x (by simp [hx]))
      simp [processFrame, directEntries, branchFrames, hstep]
    | str s =>
      have hstep := ih r cur h hnd.2 (fun x hx => hfresh x (by simp [hx]))
      simp [processFrame, directEntries, branchFrames, hstep]
    | arr elems =>
      have hstep := ih r cur h hnd.2 (fun x hx => hfresh x (by simp [hx]))
      simp [processFrame, directEntries, branchFrames, hstep]

/-- A well-formed object has distinct keys at its top level. -/
theorem wfEntries_nodup : ∀ {l : List (String × JVal)}, wfEntries l = true →
    (l.map Prod.fst).Nodup := by
  intro l
  induction l with
  | nil => intro _; simp
  | cons p rest ih =>
    intro h
    obtain ⟨k, v⟩ := p
    cases v <;>
      (simp only [wfEntries, Bool.and_eq_true, Bool.not_eq_eq_eq_not,
        Bool.not_true] at h
       obtain ⟨⟨h1, -⟩, h3⟩ := h
       simp only [List.map_cons, List.nodup_cons]
       refine ⟨by simpa using h1, ih h3⟩)

/-- A nested object of a well-formed object is well-formed. -/
theorem wfEntries_mem_obj : ∀ {l : List (String × JVal)}, wfEntries l = true →
    ∀ {k : String} {fs : List (String × JVal)}, (k, JVal.obj fs) ∈ l →
      wfEntries fs = true := by
  intro l
  induction l with
  | nil => intro _ k fs hm; simp at hm
  | cons p rest ih =>
    intro h k fs hm
    obtain ⟨k0, v0⟩ := p
    cases v0 with
    | obj fs0 =>
      simp only [wfEntries, Bool.and_eq_true] at h
      obtain ⟨⟨-, h2⟩, h3⟩ := h
      rcases List.mem_cons.mp hm with h0 | h0
      · rw [Prod.mk.injEq, JVal.obj.injEq] at h0
        rw [h0.2]
        exact h2
      · exact ih h3 h0
    | null =>
      simp only [wfEntries, Bool.and_eq_true] at h
      rcases List.mem_cons.mp hm with h0 | h0
      · rw [Prod.mk.injEq] at h0; cases h0.2
      · exact ih h.2 h0
    | bool b =>
      simp only [wfEntries, Bool.and_eq_true] at h
      rcases List.mem_cons.mp hm with h0 | h0
      · rw [Prod.mk.injEq] at h0; cases h0.2
      · exact ih h.2 h0
    | num n =>
      simp only [wfEntries, Bool.and_eq_true] at h
      rcases List.mem_cons.mp hm with h0 | h0
      · rw [Prod.mk.injEq] at h0; cases h0.2
      · exact ih h.2 h0
    | str s =>
      simp only [wfEntries, Bool.and_eq_true] at h
      rcases List.mem_cons.mp hm with h0 | h0
      · rw [Prod.mk.injEq] at h0; cases h0.2
      · exact ih h.2 h0
    | arr elems =>
      simp only [wfEntries, Bool.and_eq_true] at h
      rcases List.mem_cons.mp hm with h0 | h0
      · rw [Prod.mk.injEq] at h0; cases h0.2
      · exact ih h.2 h0

/-- Path divergence is symmetric. -/
theorem diverge_symm : ∀ {p q : List String}, Diverge p q → Diverge q p := by
  intro p q hd
  induction hd with
  | head hab => exact Diverge.head (Ne.symm hab)
  | cons a _ ih => exact Diverge.cons a ih

/-- Extending the first path beyond the divergence point keeps divergence. -/
theorem diverge_extend : ∀ {p q : List String}, Diverge p q →
    ∀ (r : List String), Diverge (p ++ r) q := by
  intro p q hd
  induction hd with
  | head hab => intro r; exact Diverge.head hab
  | cons a _ ih => intro r; exact Diverge.cons a (ih r)

/-- Sibling branch paths under the same target diverge at the final key. -/
theorem diverge_append_keys : ∀ (tp : List String) {k1 k2 : String}, k1 ≠ k2 →
    Diverge (tp ++ [k1]) (tp ++ [k2]) := by
  intro tp
  induction tp with
  | nil => intro k1 k2 h; exact Diverge.head h
  | cons a rest ih => intro k1 k2 h; exact Diverge.cons a (ih h)

/-- Every pushed subframe is the branch subframe of some branch-classified
entry of the source. -/
theorem branchFrames_mem (S : List String) (lang : String) (tp : List String) :
    ∀ (src : List (String × JVal)) (fr : List (String × JVal) × List String),
      fr ∈ branchFrames S lang tp src →
      ∃ key fields, fr = (fields, tp ++ [key]) ∧ (key, JVal.obj fields) ∈ src ∧
        truthy (langVal fields lang) = false ∧ hasLangKeys S fields = false := by
  intro src
  induction src with
  | nil => intro fr hfr; simp [branchFrames] at hfr
  | cons p rest ih =>
    intro fr hfr
    obtain ⟨key, value⟩ := p
    cases value with
    | obj fields =>
      cases h1 : truthy (langVal fields lang) with
      | true =>
        rw [branchFrames, h1] at hfr
        simp only [if_pos] at hfr
        obtain ⟨key2, fields2, he, hm, hc⟩ := ih fr hfr
        exact ⟨key2, fields2, he, List.mem_cons_of_mem _ hm, hc⟩
      | false =>
        cases h2 : hasLangKeys S fields with
        | true =>
          rw [branchFrames, h1, h2] at hfr
          simp only [Bool.false_eq_true, if_neg, if_pos] at hfr
          obtain ⟨key2, fields2, he, hm, hc⟩ := ih fr hfr
          exact ⟨key2, fields2, he, List.mem_cons_of_mem _ hm, hc⟩
        | false =>
          rw [branchFrames, h1, h2] at hfr
          rw [if_neg (by simp), if_neg (by simp)] at hfr
          rcases List.mem_cons.mp hfr with hfr | hfr
          · exact ⟨key, fields, hfr, List.mem_cons_self _ _, h1, h2⟩
          · obtain ⟨key2, fields2, he, hm, hc⟩ := ih fr hfr
            exact ⟨key2, fields2, he, List.mem_cons_of_mem _ hm, hc⟩
    | null =>
      simp only [branchFrames] at hfr
      obtain ⟨key2, fields2, he, hm, hc⟩ := ih fr hfr
      exact ⟨key2, fields2, he, List.mem_cons_of_mem _ hm, hc⟩
    | bool b =>
      simp only [branchFrames] at hfr
      obtain ⟨key2, fields2, he, hm, hc⟩ := ih fr hfr
      exact ⟨key2, fields2, he, List.mem_cons_of_mem _ hm, hc⟩
    | num n =>
      simp only [branchFrames] at hfr
      obtain ⟨key2, fields2, he, hm, hc⟩ := ih fr hfr
      exact ⟨key2, fields2, he, List.mem_cons_of_mem _ hm, hc⟩
    | str s =>
      simp only [branchFrames] at hfr
      obtain ⟨key2, fields2, he, hm, hc⟩ := ih fr hfr
      exact ⟨key2, fields2, he, List.mem_cons_of_mem _ hm, hc⟩
    | arr elems =>
      simp only [branchFrames] at hfr
      obtain ⟨key2, fields2, he, hm, hc⟩ := ih fr hfr
      exact ⟨key2, fields2, he, List.mem_cons_of_mem _ hm, hc⟩

/-- In the direct entries of a frame, a branch-classified key holds the
empty object placeholder. -/
theorem directEntries_lookup_branch (S : List String) (lang : String) :
    ∀ (src : List (String × JVal)) (key : String) (fields : List (String × JVal)),
      (src.map Prod.fst).Nodup →
      (key, JVal.obj fields) ∈ src →
      truthy (langVal fields lang) = false → hasLangKeys S fields = false →
      jLookup (directEntries S lang src) key = some (JVal.obj []) := by
  intro src
  induction src with
  | nil => intro key fields _ hm; simp at hm
  | cons p rest ih =>
    intro key fields hnd hm h1 h2
    obtain ⟨key0, value0⟩ := p
    simp only [List.map_cons, List.nodup_cons] at hnd
    rcases List.mem_cons.mp hm with h0 | h0
    · rw [Prod.mk.injEq] at h0
      obtain ⟨hk, hv⟩ := h0
      subst hk
      cases hv
      rw [directEntries, h1, h2, if_neg (by simp), if_neg (by simp), jLookup,
        if_pos rfl]
    · have hkne : key0 ≠ key := fun he => hnd.1 (he ▸ List.mem_map_of_mem Prod.fst h0)
      have htail := ih key fields hnd.2 h0 h1 h2
      cases value0 with
      | obj f0 =>
        cases hh1 : truthy (langVal f0 lang) with
        | true =>
          rw [directEntries, hh1, if_pos rfl, jLookup, if_neg hkne]
          exact htail
        | false =>
          cases hh2 : hasLangKeys S f0 with
          | true =>
            rw [directEntries, hh1, hh2, if_neg (by simp), if_pos rfl]
            exact htail
          | false =>
            rw [directEntries, hh1, hh2, if_neg (by simp), if_neg (by simp),
              jLookup, if_neg hkne]
            exact htail
      | null => simp only [directEntries]; exact htail
      | bool b => simp only [directEntries]; exact htail
      | num n => simp only [directEntries]; exact htail
      | str s => simp only [directEntries]; exact htail
      | arr elems => simp only [directEntries]; exact htail

/-- The subframes pushed by one iteration have pairwise diverging target
paths (distinct sibling keys under the same target). -/
theorem branchFrames_pairwise (S : List String) (lang : String) (tp : List String) :
    ∀ (src : List (String × JVal)), (src.map Prod.fst).Nodup →
      List.Pairwise (fun f g => Diverge f.2 g.2) (branchFrames S lang tp src) := by
  intro src
  induction src with
  | nil => intro _; simp [branchFrames]
  | cons p rest ih =>
    intro hnd
    obtain ⟨key, value⟩ := p
    simp only [List.map_cons, List.nodup_cons] at hnd
    cases value with
    | obj fields =>
      cases h1 : truthy (langVal fields lang) with
      | true =>
        rw [branchFrames, h1, if_pos rfl]
        exact ih hnd.2
      | false =>
        cases h2 : hasLangKeys S fields with
        | true =>
          rw [branchFrames, h1, h2, if_neg (by simp), if_pos rfl]
          exact ih hnd.2
        | false =>
          rw [branchFrames, h1, h2, if_neg (by simp), if_neg (by simp)]
          refine List.Pairwise.cons ?_ (ih hnd.2)
          intro g hg
          obtain ⟨key2, fields2, he, hm2, -⟩ := branchFrames_mem S lang tp rest g hg
          have hkne : key ≠ key2 := fun heq =>
            hnd.1 (heq ▸ List.mem_map_of_mem Prod.fst hm2)
          rw [he]
          exact diverge_append_keys tp hkne
    | null => simp only [branchFrames]; exact ih hnd.2
    | bool b => simp only [branchFrames]; exact ih hnd.2
    | num n => simp only [branchFrames]; exact ih hnd.2
    | str s => simp only [branchFrames]; exact ih hnd.2
    | arr elems => simp only [branchFrames]; exact ih hnd.2

/-- Filling every pushed subframe of one iteration with its own full
extraction turns the frame's direct entries into the frame's full
extraction: the empty branch placeholders become the recursively extracted
subtrees, and leaves are untouched. -/
theorem fillBranches (S : List String) (lang : String) (tp : List String) :
    ∀ (src r cur : List (String × JVal)),
      getAtPath r tp = some cur →
      (src.map Prod.fst).Nodup →
      (∀ x ∈ src.map Prod.fst, x ∉ cur.map Prod.fst) →
      (branchFrames S lang tp src).foldr
        (fun f acc => appendAt f.2 (extractTranslationsIterative S lang f.1) acc)
        (appendAt tp (directEntries S lang src) r)
      = appendAt tp (extractTranslationsIterative S lang src) r := by
  intro src
  induction src with
  | nil =>
    intro r cur _ _ _
    simp [branchFrames, directEntries, extractTranslationsIterative]
  | cons p rest ih =>
    intro r cur h hnd hfresh
    obtain ⟨key, value⟩ := p
    simp only [List.map_cons, List.nodup_cons] at hnd
    have hkey : key ∉ cur.map Prod.fst := hfresh key (by simp)
    cases value with
    | obj fields =>
      cases h1 : truthy (langVal fields lang) with
      | true =>
        have hget : getAtPath (appendAt tp [(key, langVal fields lang)] r) tp
            = some (cur ++ [(key, langVal fields lang)]) := by
          have := getAtPath_appendAt_extend tp r cur [(key, langVal fields lang)] [] h
          simpa [getAtPath] using this
        have hstep := ih (appendAt tp [(key, langVal fields lang)] r)
          (cur ++ [(key, langVal fields lang)]) hget hnd.2 (by
            intro x hx
            simp only [List.map_append, List.mem_append, List.map_cons, List.map_nil,
              List.mem_cons, List.not_mem_nil, or_false]
            push_neg
            exact ⟨hfresh x (by simp [hx]), fun hxk => hnd.1 (hxk ▸ hx)⟩)
        rw [branchFrames, h1, if_pos rfl, directEntries, h1, if_pos rfl,
          extractTranslationsIterative, h1]
        simp only [if_pos]
        calc (branchFrames S lang tp rest).foldr
              (fun f acc => appendAt f.2 (extractTranslationsIterative S lang f.1) acc)
              (appendAt tp ((key, langVal fields lang) :: directEntries S lang rest) r)
            = (branchFrames S lang tp rest).foldr
              (fun f acc => appendAt f.2 (extractTranslationsIterative S lang f.1) acc)
              (appendAt tp (directEntries S lang rest)
                (appendAt tp [(key, langVal fields lang)] r)) := by
              rw [← appendAt_append]
              rfl
          _ = appendAt tp (extractTranslationsIterative S lang rest)
                (appendAt tp [(key, langVal fields lang)] r) := hstep
          _ = appendAt tp ((key, langVal fields lang) ::
                extractTranslationsIterative S lang rest) r := by
              rw [← appendAt_append]
              rfl
      | false =>
        cases h2 : hasLangKeys S fields with
        | true =>
          have hstep := ih r cur h hnd.2 (fun x hx => hfresh x (by simp [hx]))
          rw [branchFrames, h1, h2, if_neg (by simp), if_pos rfl,
            directEntries, h1, h2, if_neg (by simp), if_pos rfl,
            extractTranslationsIterative, h1, h2]
          simp only [Bool.false_eq_true, if_neg, if_pos]
          exact hstep
        | false =>
          have hget : getAtPath (appendAt tp [(key, JVal.obj [])] r) tp
              = some (cur ++ [(key, JVal.obj [])]) := by
            have := getAtPath_appendAt_extend tp r cur [(key, JVal.obj [])] [] h
            simpa [getAtPath] using this
          have hstep := ih (appendAt tp [(key, JVal.obj [])] r)
            (cur ++ [(key, JVal.obj [])]) hget hnd.2 (by
              intro x hx
              simp only [List.map_append, List.mem_append, List.map_cons, List.map_nil,
                List.mem_cons, List.not_mem_nil, or_false]
              push_neg
              exact ⟨hfresh x (by simp [hx]), fun hxk => hnd.1 (hxk ▸ hx)⟩)
          rw [branchFrames, h1, h2, if_neg (by simp), if_neg (by simp),
            directEntries, h1, h2, if_neg (by simp), if_neg (by simp),
            extractTranslationsIterative, h1, h2]
          simp only [Bool.false_eq_true, if_neg, List.foldr_cons]
          calc appendAt (tp ++ [key]) (extractTranslationsIterative S lang fields)
                ((branchFrames S lang tp rest).foldr
                  (fun f acc => appendAt f.2 (extractTranslationsIterative S lang f.1) acc)
                  (appendAt tp ((key, JVal.obj []) :: directEntries S lang rest) r))
              = appendAt (tp ++ [key]) (extractTranslationsIterative S lang fields)
                  ((branchFrames S lang tp rest).foldr
                    (fun f acc => appendAt f.2 (extractTranslationsIterative S lang f.1) acc)
                    (appendAt tp (directEntries S lang rest)
                      (appendAt tp [(key, JVal.obj [])] r))) := by
                rw [← appendAt_append]
                rfl
            _ = appendAt (tp ++ [key]) (extractTranslationsIterative S lang fields)
                  (appendAt tp (extractTranslationsIterative S lang rest)
                    (appendAt tp [(key, JVal.obj [])] r)) := by rw [hstep]
            _ = appendAt (tp ++ [key]) (extractTranslationsIterative S lang fields)
                  (appendAt tp ((key, JVal.obj []) ::
                    extractTranslationsIterative S lang rest) r) := by
                rw [← appendAt_append]
                rfl
            _ = appendAt tp ((key, JVal.obj ([] ++ extractTranslationsIterative S lang fields)) ::
                  extractTranslationsIterative S lang rest) r :=
                appendAt_fill tp r cur key [] (extractTranslationsIterative S lang rest)
                  (extractTranslationsIterative S lang fields) h hkey
            _ = appendAt tp ((key, JVal.obj (extractTranslationsIterative S lang fields)) ::
                  extractTranslationsIterative S lang rest) r := by
                rw [List.nil_append]
    | null =>
      have hstep := ih r cur h hnd.2 (fun x hx => hfresh x (by simp [hx]))
      simp only [branchFrames, directEntries, extractTranslationsIterative]
      exact hstep
    | bool b =>
      have hstep := ih r cur h hnd.2 (fun x hx => hfresh x (by simp [hx]))
      simp only [branchFrames, directEntries, extractTranslationsIterative]
      exact hstep
    | num n =>
      have hstep := ih r cur h hnd.2 (fun x hx => hfresh x (by simp [hx]))
      simp only [branchFrames, directEntries, extractTranslationsIterative]
      exact hstep
    | str s =>
      have hstep := ih r cur h hnd.2 (fun x hx => hfresh x (by simp [hx]))
      simp only [branchFrames, directEntries, extractTranslationsIterative]
      exact hstep
    | arr elems =>
      have hstep := ih r cur h hnd.2 (fun x hx => hfresh x (by simp [hx]))
      simp only [branchFrames, directEntries, extractTranslationsIterative]
      exact hstep

/-- Reversed-fold form of `fillBranches`, matching the order in which the
loop pops the pushed subframes. -/
theorem fillBranches_rev (S : List String) (lang : String) (tp : List String)
    (src r cur : List (String × JVal)) (h : getAtPath r tp = some cur)
    (hnd : (src.map Prod.fst).Nodup)
    (hfresh : ∀ x ∈ src.map Prod.fst, x ∉ cur.map Prod.fst) :
    ((branchFrames S lang tp src).reverse).foldl
      (fun r2 f => appendAt f.2 (extractTranslationsIterative S lang f.1) r2)
      (appendAt tp (directEntries S lang src) r)
    = appendAt tp (extractTranslationsIterative S lang src) r := by
  rw [List.foldl_reverse]
  exact fillBranches S lang tp src r cur h hnd hfresh

/-- The loop invariant theorem: from a stack of pairwise-diverging frames,
each addressing a currently empty object of the result tree and carrying a
well-formed source, the loop ends with each frame's full extraction
appended at its target path. -/
theorem iterMachineRun_spec (S : List String) (lang : String) :
    ∀ (stack : List (List (String × JVal) × List String)) (result : List (String × JVal)),
      List.Pairwise (fun f g => Diverge f.2 g.2) stack →
      (∀ f ∈ stack, getAtPath result f.2 = some [] ∧ wfEntries f.1 = true) →
      iterMachineRun S lang stack result =
        stack.foldl
          (fun r f => appendAt f.2 (extractTranslationsIterative S lang f.1) r)
          result := by
  intro stack result
  induction stack, result using iterMachineRun.induct S lang with
  | case1 result =>
    intro _ _
    simp [iterMachineRun]
  | case2 source tpath stack result step ih =>
    intro hpw hfr
    obtain ⟨hget, hwf⟩ := hfr (source, tpath) (List.mem_cons_self _ _)
    have hnd := wfEntries_nodup hwf
    have hpf := processFrame_spec S lang tpath source result [] hget hnd (by simp)
    have hpw2 := List.pairwise_cons.mp hpw
    have hstep : step = (appendAt tpath (directEntries S lang source) result,
        branchFrames S lang tpath source) := hpf
    rw [hstep] at ih
    simp only at ih
    have hA : List.Pairwise (fun f g => Diverge f.2 g.2)
        ((branchFrames S lang tpath source).reverse ++ stack) := by
      rw [List.pairwise_append]
      refine ⟨?_, hpw2.2, ?_⟩
      · rw [List.pairwise_reverse]
        exact (branchFrames_pairwise S lang tpath source hnd).imp
          (fun h => diverge_symm h)
      · intro a ha b hb
        rw [List.mem_reverse] at ha
        obtain ⟨key2, fields2, he, -, -, -⟩ :=
          branchFrames_mem S lang tpath source a ha
        rw [he]
        exact diverge_extend (hpw2.1 b hb) [key2]
    have hB : ∀ f ∈ (branchFrames S lang tpath source).reverse ++ stack,
        getAtPath (appendAt tpath (directEntries S lang source) result) f.2 = some [] ∧
          wfEntries f.1 = true := by
      intro f hf
      rcases List.mem_append.mp hf with hf | hf
      · rw [List.mem_reverse] at hf
        obtain ⟨key2, fields2, he, hm2, h1, h2⟩ :=
          branchFrames_mem S lang tpath source f hf
        subst he
        constructor
        · have hext := getAtPath_appendAt_extend tpath result []
            (directEntries S lang source) [key2] hget
          have hlk := directEntries_lookup_branch S lang source key2 fields2 hnd hm2 h1 h2
          rw [hext, List.nil_append]
          simp [getAtPath, hlk]
        · exact wfEntries_mem_obj hwf hm2
      · obtain ⟨hg, hw⟩ := hfr f (List.mem_cons_of_mem _ hf)
        refine ⟨?_, hw⟩
        rw [getAtPath_appendAt_diverge (hpw2.1 f hf), hg]
    simp only [iterMachineRun, hpf]
    rw [ih hA hB, List.foldl_append,
      fillBranches_rev S lang tpath source result [] hget hnd (by simp),
      List.foldl_cons]

/-- The literal loop model computes exactly the iterative extractor: on any
parsed document (distinct keys at every level), running the explicit-stack
machine from `result = {}` and the single initial frame yields
`extractTranslationsIterative`.  This justifies reading the mutating
`while`-loop of the source as the structural recursion used throughout
this file. -/
theorem iterMachineRun_eq_extract (S : List String) (lang : String)
    (obj : List (String × JVal)) (hwf : wfEntries obj = true) :
    extractTranslationsIterativeMachine S lang obj =
      extractTranslationsIterative S lang obj := by
  have h := iterMachineRun_spec S lang [(obj, [])] []
    (by simp)
    (by
      intro f hf
      simp only [List.mem_singleton] at hf
      subst hf
      exact ⟨rfl, hwf⟩)
  simpa [extractTranslationsIterativeMachine, appendAt] using h

/-- The branch skeleton is realised by the output: every skeleton entry is a
branch-classified source entry whose key is emitted in the output with the
recursively extracted object, and whose sub-skeleton is the skeleton of that
subtree. -/
theorem extractShape_anchor (S : List String) (l : String) :
    ∀ (obj : List (String × JVal)) (k : String) (sk : Skel),
      (k, sk) ∈ extractShape S l obj →
      ∃ fields, (k, JVal.obj fields) ∈ obj ∧
        sk = Skel.node (extractShape S l fields) ∧
        (k, JVal.obj (extractTranslationsIterative S l fields)) ∈
          extractTranslationsIterative S l obj := by
  intro obj
  induction obj using extractShape.induct S l with
  | case1 => intro k sk h; simp [extractShape] at h
  | case2 key rest fields ht ih =>
    intro k sk h
    rw [extractShape, ht, if_pos rfl] at h
    obtain ⟨f2, hm, hsk, hout⟩ := ih k sk h
    refine ⟨f2, List.mem_cons_of_mem _ hm, hsk, ?_⟩
    rw [extractTranslationsIterative, ht, if_pos rfl]
    exact List.mem_cons_of_mem _ hout
  | case3 key rest fields hnt hk ih =>
    intro k sk h
    simp only [Bool.not_eq_true] at hnt
    rw [extractShape, hnt, hk, if_neg (by simp), if_pos rfl] at h
    obtain ⟨f2, hm, hsk, hout⟩ := ih k sk h
    refine ⟨f2, List.mem_cons_of_mem _ hm, hsk, ?_⟩
    rw [extractTranslationsIterative, hnt, hk, if_neg (by simp), if_pos rfl]
    exact hout
  | case4 key rest fields hnt hk ihf ih =>
    intro k sk h
    simp only [Bool.not_eq_true] at hnt hk
    rw [extractShape, hnt, hk, if_neg (by simp), if_neg (by simp)] at h
    rcases List.mem_cons.mp h with h0 | h0
    · rw [Prod.mk.injEq] at h0
      refine ⟨fields, ?_, ?_, ?_⟩
      · rw [h0.1]; exact List.mem_cons_self _ _
      · exact h0.2
      · rw [extractTranslationsIterative, hnt, hk, if_neg (by simp),
          if_neg (by simp), h0.1]
        exact List.mem_cons_self _ _
    · obtain ⟨f2, hm, hsk, hout⟩ := ih k sk h0
      refine ⟨f2, List.mem_cons_of_mem _ hm, hsk, ?_⟩
      rw [extractTranslationsIterative, hnt, hk, if_neg (by simp), if_neg (by simp)]
      exact List.mem_cons_of_mem _ hout
  | case5 key value rest hnv ih =>
    intro k sk h
    have hsh : extractShape S l ((key, value) :: rest) = extractShape S l rest := by
      cases value <;>
        first
          | exact absurd rfl (hnv _)
          | simp [extractShape]
    have hex : extractTranslationsIterative S l ((key, value) :: rest)
        = extractTranslationsIterative S l rest := by
      cases value <;>
        first
          | exact absurd rfl (hnv _)
          | simp [extractTranslationsIterative]
    rw [hsh] at h
    obtain ⟨f2, hm, hsk, hout⟩ := ih k sk h
    exact ⟨f2, List.mem_cons_of_mem _ hm, hsk, hex ▸ hout⟩

/-- The flat-leaf worked example: `{"a": {"vi": "X", "en": "Y"}}` yields
`{"a": "X"}` for `vi` and `{"a": "Y"}` for `en`, in every extractor. -/
theorem extract_flat_leaves_example :
    extractTranslationsIterative ["vi", "en"] "vi"
        [("a", JVal.obj [("vi", JVal.str "X"), ("en", JVal.str "Y")])] =
      [("a", JVal.str "X")] ∧
    extractTranslationsIterative ["vi", "en"] "en"
        [("a", JVal.obj [("vi", JVal.str "X"), ("en", JVal.str "Y")])] =
      [("a", JVal.str "Y")] ∧
    extractTranslations [("a", JVal.obj [("vi", JVal.str "X"), ("en", JVal.str "Y")])]
        ["vi", "en"] "vi" =
      [("a", JVal.str "X")] := by
  refine ⟨?_, ?_, ?_⟩ <;>
    simp [extractTranslations, extractTranslationsIterative, processObject,
      langVal, jLookup, truthy, hasLangKeys]

/-- The nested worked example:
`{"g": {"a": {"vi": "X", "en": "Y"}, "b": {"vi": "Z", "en": "W"}}}` yields
`{"g": {"a": "X", "b": "Z"}}` for `vi`. -/
theorem extract_nested_example :
    extractTranslationsIterative ["vi", "en"] "vi"
        [("g", JVal.obj
          [("a", JVal.obj [("vi", JVal.str "X"), ("en", JVal.str "Y")]),
           ("b", JVal.obj [("vi", JVal.str "Z"), ("en", JVal.str "W")])])] =
      [("g", JVal.obj [("a", JVal.str "X"), ("b", JVal.str "Z")])] := by
  simp [extractTranslationsIterative, langVal, jLookup, truthy, hasLangKeys]

/-- The step machine agrees with the extractor on the nested worked
example. -/
theorem machine_nested_example :
    extractTranslationsIterativeMachine ["vi", "en"] "vi"
        [("g", JVal.obj
          [("a", JVal.obj [("vi", JVal.str "X"), ("en", JVal.str "Y")]),
           ("b", JVal.obj [("vi", JVal.str "Z"), ("en", JVal.str "W")])])] =
      [("g", JVal.obj [("a", JVal.str "X"), ("b", JVal.str "Z")])] := by
  rw [iterMachineRun_eq_extract _ _ _ (by simp [wfEntries])]
  exact extract_nested_example
